import Mathlib

/-!
Verification of `results_creator.py` — a season-results aggregation script for
orienteering events.  The script reads per-event IOF XML result files, assigns
points by finishing position, aggregates per-category season totals and writes
one combined CSV report.

The Python source is shallowly embedded below.  Strings are modelled as
`List Char`; Python `dict`s (and `defaultdict`s) are modelled as insertion
ordered association lists; fallible code returns `Except`/`Option`.
Unicode-dependent primitives (`str.lower`, `str.strip`, `re` character
classes, `unicodedata.normalize`) are modelled faithfully on the character
repertoire the script manipulates: ASCII, the precomposed letters ž/Ž used by
the substitution table, the combining caron U+030C, the dash characters
U+00A0/U+2013/U+2014 named in the dash regex, and the common whitespace
characters; characters outside this repertoire are treated as inert.
-/

/-- Whitespace characters, as recognised by Python's `str.strip()` and the
regex class `\s` (modelled repertoire: ASCII whitespace, the C1 separator
controls, NEL and NBSP). -/
def isPyWhitespace (c : Char) : Bool :=
  c = ' ' || c = '\t' || c = '\n' || c = '\r' || c = '\x0b' || c = '\x0c' ||
  c = '\x1c' || c = '\x1d' || c = '\x1e' || c = '\x1f' || c = '\u0085' || c = '\u00A0'

/-- The characters of the dash-unification regex class
`[ –—\-]` in `normalize_class_name`. -/
def isDashChar (c : Char) : Bool :=
  c = '\u00A0' || c = '\u2013' || c = '\u2014' || c = '-'

/-- Python `str.lower`, modelled on the repertoire (ASCII letters and Ž). -/
def pyLower (c : Char) : Char :=
  if 'A' ≤ c ∧ c ≤ 'Z' then Char.ofNat (c.toNat + 32)
  else if c = 'Ž' then 'ž' else c

/-- Python title/upper-casing of a single character, as used by
`str.capitalize` on the first character (modelled repertoire). -/
def pyUpper (c : Char) : Char :=
  if 'a' ≤ c ∧ c ≤ 'z' then Char.ofNat (c.toNat - 32)
  else if c = 'ž' then 'Ž' else c

/-- Python `str.strip()` (with no argument): drop whitespace from both ends. -/
def pyStrip (l : List Char) : List Char :=
  ((l.dropWhile isPyWhitespace).reverse.dropWhile isPyWhitespace).reverse

/-- Helper for `dashSub`: the boolean records whether we are inside a maximal
run of dash-class characters whose replacement is still pending. -/
def dashSubAux : Bool → List Char → List Char
  | false, [] => []
  | true,  [] => [' ', '-', ' ']
  | false, c :: t => if isDashChar c then dashSubAux true t else c :: dashSubAux false t
  | true,  c :: t =>
    if isDashChar c then dashSubAux true t
    else ' ' :: '-' :: ' ' :: c :: dashSubAux false t

/-- `re.sub(r"[ –—\-]+", " - ", name)`: every maximal run of
dash-class characters becomes a space-hyphen-space separator. -/
def dashSub (l : List Char) : List Char := dashSubAux false l

/-- Helper for `wsSub`; the boolean records a pending whitespace run. -/
def wsSubAux : Bool → List Char → List Char
  | false, [] => []
  | true,  [] => [' ']
  | false, c :: t => if isPyWhitespace c then wsSubAux true t else c :: wsSubAux false t
  | true,  c :: t =>
    if isPyWhitespace c then wsSubAux true t else ' ' :: c :: wsSubAux false t

/-- `re.sub(r"\s+", " ", name)`: collapse whitespace runs to a single space. -/
def wsSub (l : List Char) : List Char := wsSubAux false l

/-- `re.sub(r" [a-z]$", "", name)`: chop a trailing space-plus-ASCII-lowercase
letter pair, if present. -/
def chopTail (l : List Char) : List Char :=
  match l.reverse with
  | c :: s :: r => if s = ' ' ∧ 'a' ≤ c ∧ c ≤ 'z' then r.reverse else l
  | _ => l

/-- NFKD decomposition of one character (modelled repertoire: ž and Ž
decompose to a base letter followed by the combining caron U+030C; other
characters of the repertoire are their own decomposition). -/
def nfkdChar (c : Char) : List Char :=
  if c = 'ž' then ['z', '\u030C']
  else if c = 'Ž' then ['Z', '\u030C'] else [c]

/-- `unicodedata.normalize("NFKD", _)` on the modelled repertoire. -/
def nfkd : List Char → List Char
  | [] => []
  | c :: t => nfkdChar c ++ nfkd t

/-- Does the list start with the four characters `muzi`? -/
def startsMuzi (l : List Char) : Bool :=
  l.head? == some 'm' && l.tail.head? == some 'u' &&
  l.tail.tail.head? == some 'z' && l.tail.tail.tail.head? == some 'i'

/-- Does the list start with the four characters `zeny`? -/
def startsZeny (l : List Char) : Bool :=
  l.head? == some 'z' && l.tail.head? == some 'e' &&
  l.tail.tail.head? == some 'n' && l.tail.tail.tail.head? == some 'y'

/-- `str.replace("muzi", "muži")`: left-to-right replacement of every
(non-overlapping) occurrence. -/
def repMuzi : List Char → List Char
  | [] => []
  | a :: t =>
    if startsMuzi (a :: t) then
      match t with
      | _ :: _ :: _ :: t3 => 'm' :: 'u' :: 'ž' :: 'i' :: repMuzi t3
      | _ => []
    else a :: repMuzi t

/-- `str.replace("zeny", "ženy")`: left-to-right replacement of every
(non-overlapping) occurrence. -/
def repZeny : List Char → List Char
  | [] => []
  | a :: t =>
    if startsZeny (a :: t) then
      match t with
      | _ :: _ :: _ :: t3 => 'ž' :: 'e' :: 'n' :: 'y' :: repZeny t3
      | _ => []
    else a :: repZeny t

/-- Is `muzi` a substring (occurring anywhere)? -/
def hasMuzi : List Char → Bool
  | [] => false
  | c :: t => startsMuzi (c :: t) || hasMuzi t

/-- Is `zeny` a substring (occurring anywhere)? -/
def hasZeny : List Char → Bool
  | [] => false
  | c :: t => startsZeny (c :: t) || hasZeny t

/-- `unicodedata.normalize("NFC", _)` on the modelled repertoire: a base z/Z
followed by the combining caron recomposes to ž/Ž. -/
def nfc : List Char → List Char
  | [] => []
  | [a] => [a]
  | a :: b :: t =>
    if a = 'z' ∧ b = '\u030C' then 'ž' :: nfc t
    else if a = 'Z' ∧ b = '\u030C' then 'Ž' :: nfc t
    else a :: nfc (b :: t)

/-- Python `str.capitalize()`: first character title-cased, the rest
lower-cased. -/
def pyCapitalize : List Char → List Char
  | [] => []
  | c :: t => pyUpper c :: t.map pyLower

/-- `normalize_class_name` (results_creator.py lines 29–41): canonicalise a
raw class label.  `None`/empty input yields the empty string; otherwise
lowercase and strip, unify dash runs, collapse whitespace, chop a trailing
space-lowercase-letter pair, NFKD-decompose, substitute the two gendered
nouns, NFC-recompose, and capitalise. -/
def normalize_class_name (raw : List Char) : List Char :=
  if raw = [] then []
  else
    pyCapitalize (nfc (repZeny (repMuzi (nfkd
      (chopTail (wsSub (dashSub (pyStrip (raw.map pyLower)))))))))

/-- `map_status` (results_creator.py lines 44–59): convert a raw IOF status
to a display string, `none` meaning "resolve by position". -/
def map_status (raw : Option (List Char)) : Option (List Char) :=
  let raw_lc := (raw.getD []).map pyLower
  if raw_lc = "didnotstart".data then some "DNS".data
  else if raw_lc = "didnotfinish".data then some "DNF".data
  else if raw_lc ≠ [] ∧ raw_lc ≠ "ok".data then some "DISQ".data
  else none

/-- ASCII digit test (the repertoire of `str.isdigit` and `int()` the script
actually meets). -/
def isDigitChar (c : Char) : Bool := '0' ≤ c && c ≤ '9'

/-- Python `str.isdigit()`: non-empty and all digits. -/
def pyIsDigit (l : List Char) : Bool := !l.isEmpty && l.all isDigitChar

/-- Numeric value of a digit string (used for `int()` on digit strings). -/
def charsToNat (l : List Char) : Nat :=
  l.foldl (fun a c => a * 10 + (c.toNat - 48)) 0

/-- The decimal digit characters `0`–`9`. -/
def digitChar (d : Nat) : Char :=
  match d with
  | 0 => '0' | 1 => '1' | 2 => '2' | 3 => '3' | 4 => '4'
  | 5 => '5' | 6 => '6' | 7 => '7' | 8 => '8' | _ => '9'

/-- Digit expansion of a natural number (fuel-indexed so that the recursion is
structural; `natToChars` always supplies enough fuel). -/
def natToCharsGo : Nat → Nat → List Char → List Char
  | 0, n, acc => digitChar n :: acc
  | fuel + 1, n, acc =>
    if n < 10 then digitChar n :: acc
    else natToCharsGo fuel (n / 10) (digitChar (n % 10) :: acc)

/-- Python `str(n)` for a natural number. -/
def natToChars (n : Nat) : List Char := natToCharsGo n n []

/-- Python `str(i)` for an integer. -/
def intToChars (i : Int) : List Char :=
  if i < 0 then '-' :: natToChars i.natAbs else natToChars i.toNat

/-- Python `int(s)` on the modelled grammar: optional surrounding whitespace,
optional sign, one or more ASCII digits; anything else raises `ValueError`
(modelled as `none`). -/
def pyInt (l : List Char) : Option Int :=
  let s := pyStrip l
  match s with
  | '+' :: d => if d ≠ [] ∧ d.all isDigitChar then some (charsToNat d) else none
  | '-' :: d => if d ≠ [] ∧ d.all isDigitChar then some (-(charsToNat d : Int)) else none
  | d => if d ≠ [] ∧ d.all isDigitChar then some (charsToNat d) else none

/-- `POINTS = {i: 21 - i for i in range(1, 21)}` (results_creator.py line 23),
as an insertion-ordered association list. -/
def POINTS : List (Int × Int) :=
  (List.range' 1 20).map (fun i => ((i : Int), 21 - (i : Int)))

/-- Python `dict.get(k, dflt)` on an association list. -/
def dictGetD (l : List (Int × Int)) (k : Int) (dflt : Int) : Int :=
  match l with
  | [] => dflt
  | (k', v) :: t => if k' = k then v else dictGetD t k dflt

/-- `POINTS.get(position, 0)`. -/
def pointsGet (p : Int) : Int := dictGetD POINTS p 0

/-- Position parsing of `parse_event` (results_creator.py lines 90–95):
`int(pos_text)` with `ValueError` giving `(None, 0)`, otherwise
`POINTS.get(position, 0)` for the points. -/
def parsePosition (pos_text : List Char) : Option Int × Int :=
  match pyInt pos_text with
  | some p => (some p, pointsGet p)
  | none => (none, 0)

/-- A competitor key: `(given, family, svk_id)`. -/
abbrev PKey := List Char × List Char × List Char

/-- One result record as produced by `parse_event` (results_creator.py
lines 97–105). -/
structure Record where
  class_name : List Char
  person_key : PKey
  position : Option Int
  points : Int
  status_raw : List Char
deriving DecidableEq, Repr

/-- The display value resolved for a record by `build_tables`
(results_creator.py lines 137–146): status code first, then blank for a
missing position, then the decimal points when positive, else `"0"`. -/
def displayOf (rec : Record) : List Char :=
  match map_status (some rec.status_raw) with
  | some code => code
  | none =>
    match rec.position with
    | none => []
    | some _ => if rec.points > 0 then intToChars rec.points else "0".data

/-- The accumulation state of `build_tables` for one category:
`cells_by_comp` and `totals_by_comp` as insertion-ordered association lists
(Python 3.7+ `dict`/`defaultdict` preserve insertion order). -/
structure Agg where
  cells : List (PKey × List (List Char))
  totals : List (PKey × Int)
deriving DecidableEq, Repr

/-- Lookup in an insertion-ordered association list (`d[k]` with a
`defaultdict` default). -/
def aGet {α : Type} (d : List (PKey × α)) (k : PKey) (dflt : α) : α :=
  match d with
  | [] => dflt
  | (k', v) :: t => if k' = k then v else aGet t k dflt

/-- Store into an insertion-ordered association list: update in place when the
key exists, append otherwise (Python dict semantics). -/
def aSet {α : Type} (d : List (PKey × α)) (k : PKey) (v : α) : List (PKey × α) :=
  match d with
  | [] => [(k, v)]
  | (k', v') :: t => if k' = k then (k', v) :: t else (k', v') :: aSet t k v

/-- The default cell row: one "not entered" blank per event. -/
def emptyCells (n : Nat) : List (List Char) := List.replicate n []

/-- Process one record of the current category at event index `idx`
(results_creator.py lines 134–150): write the display into the competitor's
cell for that event and, if the display is a pure digit string, add its
integer value to the running total. -/
def procRec (nEv idx : Nat) (st : Agg) (rec : Record) : Agg :=
  let key := rec.person_key
  let display := displayOf rec
  let cells' := (aGet st.cells key (emptyCells nEv)).set idx display
  let st1 : Agg := ⟨aSet st.cells key cells', st.totals⟩
  if pyIsDigit display then
    ⟨st1.cells, aSet st1.totals key (aGet st1.totals key 0 + (charsToNat display : Int))⟩
  else st1

/-- Process one event's records for category `cat` at event index `idx`. -/
def procEvent (cat : List Char) (nEv idx : Nat) (st : Agg) (recs : List Record) : Agg :=
  (recs.filter (fun r => decide (r.class_name = cat))).foldl (procRec nEv idx) st

/-- The per-category accumulation loop of `build_tables` (results_creator.py
lines 128–150), abstracted over the events' record lists. -/
def aggregate (evs : List (List Record)) (cat : List Char) : Agg :=
  evs.enum.foldl (fun st p => procEvent cat evs.length p.1 st p.2) ⟨[], []⟩

/-- One data row of a category table before ranking:
`[given, family, pid, *cells, total]` (results_creator.py lines 153–156). -/
structure Row where
  given : List Char
  family : List Char
  pid : List Char
  cells : List (List Char)
  total : Int
deriving DecidableEq, Repr

/-- Rows in dict insertion order, totals looked up with default 0. -/
def rowsOf (agg : Agg) : List Row :=
  agg.cells.map (fun p =>
    ⟨p.1.1, p.1.2.1, p.1.2.2, p.2, aGet agg.totals p.1 0⟩)

/-- Insert a row behind every strictly larger total (the order produced by
Python's stable `list.sort(key=lambda x: -x[-1])`). -/
def insertRow (r : Row) : List Row → List Row
  | [] => [r]
  | s :: t => if r.total < s.total then s :: insertRow r t else r :: s :: t

/-- `rows.sort(key=lambda x: -x[-1])` (results_creator.py line 157): stable
sort by descending total. -/
def sortRows : List Row → List Row
  | [] => []
  | r :: t => insertRow r (sortRows t)

/-- `rows = [[rk + 1] + row for rk, row in enumerate(rows)]`
(results_creator.py line 158): prepend 1-based ranks. -/
def rankRows (l : List Row) : List (Nat × Row) :=
  l.enum.map (fun p => (p.1 + 1, p.2))

/-- The ranked data rows of one category section of the report. -/
def catSection (evs : List (List Record)) (cat : List Char) : List (Nat × Row) :=
  rankRows (sortRows (rowsOf (aggregate evs cat)))

/-- A calendar date as produced by `datetime.fromisoformat`. -/
structure PyDate where
  year : Nat
  month : Nat
  day : Nat
deriving DecidableEq, Repr

/-- Chronological sort key of a date (Python datetimes compare
lexicographically by (year, month, day)). -/
def dateKey (d : PyDate) : Nat := d.year * 10000 + d.month * 100 + d.day

/-- Gregorian leap-year rule. -/
def isLeap (y : Nat) : Bool := (y % 4 = 0 && y % 100 ≠ 0) || y % 400 = 0

/-- Days in a month. -/
def daysInMonth (y m : Nat) : Nat :=
  if m = 2 then (if isLeap y then 29 else 28)
  else if m = 4 ∨ m = 6 ∨ m = 9 ∨ m = 11 then 30 else 31

/-- `datetime.fromisoformat` on the date-only grammar `YYYY-MM-DD` the input
documents use; any other string raises `ValueError` (modelled as `none`). -/
def fromIso (l : List Char) : Option PyDate :=
  match l with
  | [y1, y2, y3, y4, '-', m1, m2, '-', d1, d2] =>
    if [y1, y2, y3, y4, m1, m2, d1, d2].all isDigitChar then
      let y := charsToNat [y1, y2, y3, y4]
      let m := charsToNat [m1, m2]
      let d := charsToNat [d1, d2]
      if 1 ≤ m ∧ m ≤ 12 ∧ 1 ≤ d ∧ d ≤ daysInMonth y m then some ⟨y, m, d⟩ else none
    else none
  | _ => none

/-- One `<Id>` element of a person: its `type` attribute and its text. -/
structure IdNode where
  idType : Option (List Char)
  text : Option (List Char)
deriving DecidableEq, Repr

/-- One `<PersonResult>` as far as `parse_event` reads it.  `findtext` calls
made with `default=""` are modelled as the found-or-default string; the
optional sub-elements keep their raw text. -/
structure RawPerson where
  given : List Char
  family : List Char
  ids : List IdNode
  pos_text : List Char
  status : List Char
deriving DecidableEq, Repr

/-- One `<ClassResult>`: the class name (absent when the element is missing)
and the person results. -/
structure XmlClass where
  cls_name : Option (List Char)
  persons : List RawPerson
deriving DecidableEq, Repr

/-- One input document, reduced to the fields `parse_event` reads. -/
structure XmlFile where
  event_name : Option (List Char)
  event_date : Option (List Char)
  classes : List XmlClass
deriving DecidableEq, Repr

/-- First `<Id>` whose `type` attribute is `SVK`, stripped; empty string when
none matches (results_creator.py lines 84–88). -/
def findSvk : List IdNode → List Char
  | [] => []
  | idn :: rest =>
    if idn.idType = some "SVK".data then pyStrip (idn.text.getD [])
    else findSvk rest

/-- Build one result record from a person entry (results_creator.py
lines 75–105). -/
def parseRecord (cname : List Char) (p : RawPerson) : Record :=
  { class_name := cname
    person_key := (pyStrip p.given, pyStrip p.family, findSvk p.ids)
    position := (parsePosition p.pos_text).1
    points := (parsePosition p.pos_text).2
    status_raw := p.status }

/-- The parsed form of one event: metadata plus the flat record list
(the dict returned by `parse_event`, results_creator.py lines 107–112). -/
structure PEvent where
  name : Option (List Char)
  date_str : List Char
  date_obj : PyDate
  records : List Record
deriving DecidableEq, Repr

/-- `parse_event` (results_creator.py lines 63–112).  A missing or
unparseable date field raises (`TypeError`/`ValueError`), which is fatal for
the run; per-record problems never raise. -/
def parse_event (f : XmlFile) : Except (List Char) PEvent :=
  match f.event_date with
  | none => .error "TypeError: fromisoformat: argument must be str".data
  | some ds =>
    match fromIso ds with
    | none => .error "ValueError: Invalid isoformat string".data
    | some d =>
      .ok { name := f.event_name
            date_str := ds
            date_obj := d
            records := (f.classes.map (fun c =>
              c.persons.map (parseRecord (normalize_class_name (c.cls_name.getD []))))).flatten }

/-- Sequence `Except` over a list, stopping at the first error — the
behaviour of the list comprehension `[parse_event(p) for p in xml_files]`. -/
def mapExcept {α β : Type} (g : α → Except (List Char) β) : List α → Except (List Char) (List β)
  | [] => .ok []
  | x :: t =>
    match g x with
    | .error e => .error e
    | .ok b =>
      match mapExcept g t with
      | .error e => .error e
      | .ok bs => .ok (b :: bs)

/-- Stable insertion of an event behind every chronologically
not-later event. -/
def insertEvent (e : PEvent) : List PEvent → List PEvent
  | [] => [e]
  | f :: t => if dateKey f.date_obj ≤ dateKey e.date_obj then f :: insertEvent e t
              else e :: f :: t

/-- `events.sort(key=lambda e: e["date_obj"])` (results_creator.py line 196):
stable sort, earliest first. -/
def sortEvents : List PEvent → List PEvent
  | [] => []
  | e :: t => insertEvent e (sortEvents t)

/-- Lexicographic (code-point) comparison of strings, Python's `str` order. -/
def lexLt : List Char → List Char → Bool
  | [], [] => false
  | [], _ :: _ => true
  | _ :: _, [] => false
  | a :: s, b :: t => if a = b then lexLt s t else decide (a < b)

/-- Stable insertion behind every not-greater element. -/
def insertLex (x : List Char) : List (List Char) → List (List Char)
  | [] => [x]
  | y :: t => if lexLt x y then x :: y :: t else y :: insertLex x t

/-- Sort strings lexicographically (Python `sorted`). -/
def sortLex : List (List Char) → List (List Char)
  | [] => []
  | x :: t => insertLex x (sortLex t)

/-- Distinct elements in order of first appearance (`seen` accumulates the
elements already kept). -/
def firstDedupAux {α : Type} [DecidableEq α] (seen : List α) : List α → List α
  | [] => []
  | x :: t => if x ∈ seen then firstDedupAux seen t
              else x :: firstDedupAux (x :: seen) t

/-- Distinct elements of a list, first occurrences kept in order (insertion
order of a Python `dict`/`set` fed from the list). -/
def firstDedup {α : Type} [DecidableEq α] (l : List α) : List α := firstDedupAux [] l

/-- `sorted({r["class_name"] ...})` (results_creator.py line 126). -/
def categoriesOf (evs : List (List Record)) : List (List Char) :=
  sortLex (firstDedup ((evs.flatten).map (fun r => r.class_name)))

/-- `build_tables` (results_creator.py lines 115–186), reduced to the data
content of the report: per category (in sorted order) the ranked data rows.
The header/title rows and the CSV serialisation are the opaque tabular sink
of the spec and carry no further logic. -/
def build_tables (events : List PEvent) : List (List Char × List (Nat × Row)) :=
  (categoriesOf (events.map (fun e => e.records))).map
    (fun cat => (cat, catSection (events.map (fun e => e.records)) cat))

/-- The `__main__` block (results_creator.py lines 190–197): abort with
`SystemExit` (non-zero exit, diagnostic message) when no input documents were
discovered; otherwise parse every file (first parse error aborts the run with
no output), sort events by date and build the report. -/
def mainModel (files : List XmlFile) : Except (List Char) (List (List Char × List (Nat × Row))) :=
  if files = [] then .error "No *.xml files found!".data
  else
    match mapExcept parse_event files with
    | .error e => .error e
    | .ok events => .ok (build_tables (sortEvents events))

/-- The contribution of one display value to a season total: its integer
value when it is a pure digit string, 0 otherwise. -/
def digitContrib (d : List Char) : Int := if pyIsDigit d then (charsToNat d : Int) else 0

/-- The records of one event belonging to category `cat` and competitor `k`,
in document order. -/
def matchRecs (recs : List Record) (cat : List Char) (k : PKey) : List Record :=
  (recs.filter (fun r => decide (r.class_name = cat))).filter
    (fun r => decide (r.person_key = k))

/-- The display finally left in competitor `k`'s cell by one event's records
(the last matching record wins; blank when none matches). -/
def lastDisp (recs : List Record) (cat : List Char) (k : PKey) : List Char :=
  (((matchRecs recs cat k).map displayOf).getLast?).getD []

/-- What one event's records add to competitor `k`'s season total. -/
def evContrib (recs : List Record) (cat : List Char) (k : PKey) : Int :=
  ((matchRecs recs cat k).map (fun r => digitContrib (displayOf r))).sum

/-- All category-`cat` records of the season in processing order. -/
def catRecs (evs : List (List Record)) (cat : List Char) : List Record :=
  (evs.flatten).filter (fun r => decide (r.class_name = cat))

/-- Characters the amended idempotence statement for
`normalize_class_name` quantifies over: ASCII, not whitespace, not in the
dash class. -/
def plainChar (c : Char) : Bool :=
  decide (c.toNat < 128) && !isPyWhitespace c && !isDashChar c

/-- The records of a list that belong to competitor `k`. -/
def keyMatches (rs : List Record) (k : PKey) : List Record :=
  rs.filter (fun r => decide (r.person_key = k))

/-- The display left in competitor `k`'s cell by a record list processed in
order, if any record matches. -/
def lastDispK (rs : List Record) (k : PKey) : Option (List Char) :=
  ((keyMatches rs k).map displayOf).getLast?

/-- What a record list adds to competitor `k`'s running total. -/
def contribK (rs : List Record) (k : PKey) : Int :=
  ((keyMatches rs k).map (fun r => digitContrib (displayOf r))).sum

/-- Lookup with default returns the default when no key matches. -/
theorem dictGetD_of_not_mem (l : List (Int × Int)) (k d : Int)
    (h : ∀ e ∈ l, e.1 ≠ k) : dictGetD l k d = d := by
  induction l with
  | nil => rfl
  | cons e t ih =>
    simp only [dictGetD]
    rw [if_neg (h e (by simp))]
    exact ih (fun e' he' => h e' (by simp [he']))

/-- C3: the scoring rule is total and pure: positions 1..20 score `21 - p`,
positions 21 and beyond score 0, and an absent or unparseable position gives
no position and 0 points, with no error case (`POINTS.get(position, 0)` and
the `ValueError` handler of `parse_event`). -/
theorem scoring_rule_total (p : Int) (s : List Char) :
    (1 ≤ p ∧ p ≤ 20 → pointsGet p = 21 - p) ∧
    (21 ≤ p → pointsGet p = 0) ∧
    (pyInt s = none → parsePosition s = (none, 0)) := by
  refine ⟨fun h => ?_, fun h => ?_, fun h => ?_⟩
  · obtain ⟨h1, h2⟩ := h
    interval_cases p <;> decide
  · apply dictGetD_of_not_mem
    intro e he
    have hlt : e.1 < 21 := by
      have hall : ∀ e ∈ POINTS, e.1 < 21 := by decide
      exact hall e he
    intro hc
    omega
  · simp [parsePosition, h]

/-- Witness for `scoring_rule_total` at positions 5 and 33 and the
unparseable position text `"abc"`. -/
theorem scoring_rule_total_witness :
    ((1 ≤ (5 : Int) ∧ (5 : Int) ≤ 20) ∧ pointsGet 5 = 21 - 5) ∧
    ((21 : Int) ≤ 33 ∧ pointsGet 33 = 0) ∧
    (pyInt "abc".data = none ∧ parsePosition "abc".data = (none, 0)) :=
  ⟨⟨by decide, (scoring_rule_total 5 "abc".data).1 (by decide)⟩,
   ⟨by decide, (scoring_rule_total 33 "abc".data).2.1 (by decide)⟩,
   ⟨by decide, (scoring_rule_total 5 "abc".data).2.2 (by decide)⟩⟩

/-- C4: the display value of a record is resolved by exactly this priority:
a DNS/DNF/DISQ status code first; else blank for an absent position; else the
decimal string of positive points; else `"0"` (results_creator.py
lines 137–146). -/
theorem display_priority (rec : Record) :
    (∀ code, map_status (some rec.status_raw) = some code → displayOf rec = code) ∧
    (map_status (some rec.status_raw) = none → rec.position = none →
      displayOf rec = []) ∧
    (∀ p, map_status (some rec.status_raw) = none → rec.position = some p →
      0 < rec.points → displayOf rec = intToChars rec.points) ∧
    (∀ p, map_status (some rec.status_raw) = none → rec.position = some p →
      ¬ 0 < rec.points → displayOf rec = "0".data) := by
  refine ⟨fun code h => ?_, fun h hp => ?_, fun p h hp hpts => ?_, fun p h hp hpts => ?_⟩ <;>
    simp [displayOf, *]

/-- Witness for `display_priority`: a disqualified record and a scored one. -/
theorem display_priority_witness :
    (map_status (some "mp".data) = some "DISQ".data ∧
      displayOf ⟨[], ([], [], []), some 4, 17, "mp".data⟩ = "DISQ".data) ∧
    (map_status (some "ok".data) = none ∧ (0 : Int) < 17 ∧
      displayOf ⟨[], ([], [], []), some 4, 17, "ok".data⟩ = intToChars 17) :=
  ⟨⟨by decide, (display_priority ⟨[], ([], [], []), some 4, 17, "mp".data⟩).1
      "DISQ".data (by decide)⟩,
   ⟨by decide, by decide,
    (display_priority ⟨[], ([], [], []), some 4, 17, "ok".data⟩).2.2.1
      4 (by decide) (by decide) (by decide)⟩⟩

/-- C5: status mapping is total and case-insensitive: on the lower-cased
input, `didnotstart` gives DNS, `didnotfinish` gives DNF, empty (including an
absent input) or `ok` gives none, every other value gives DISQ, and the
result is always one of these four — no error condition
(results_creator.py lines 44–59). -/
theorem status_mapping_total (raw : Option (List Char)) :
    ((raw.getD []).map pyLower = "didnotstart".data → map_status raw = some "DNS".data) ∧
    ((raw.getD []).map pyLower = "didnotfinish".data → map_status raw = some "DNF".data) ∧
    ((raw.getD []).map pyLower = [] ∨ (raw.getD []).map pyLower = "ok".data →
      map_status raw = none) ∧
    ((raw.getD []).map pyLower ≠ [] ∧
     (raw.getD []).map pyLower ≠ "didnotstart".data ∧
     (raw.getD []).map pyLower ≠ "didnotfinish".data ∧
     (raw.getD []).map pyLower ≠ "ok".data → map_status raw = some "DISQ".data) ∧
    (map_status raw = none ∨ map_status raw = some "DNS".data ∨
     map_status raw = some "DNF".data ∨ map_status raw = some "DISQ".data) := by
  refine ⟨fun h => ?_, fun h => ?_, fun h => ?_, fun h => ?_, ?_⟩
  · simp [map_status, h]
  · simp [map_status, h]
  · rcases h with h | h <;> simp [map_status, h]
  · obtain ⟨h1, h2, h3, h4⟩ := h
    simp only [map_status]
    rw [if_neg h2, if_neg h3, if_pos ⟨h1, h4⟩]
  · simp only [map_status]
    split
    · simp
    · split
      · simp
      · split
        · simp
        · simp

/-- Witness for `status_mapping_total` on `"DidNotStart"` and `" OK "`. -/
theorem status_mapping_total_witness :
    ("DidNotStart".data.map pyLower = "didnotstart".data ∧
      map_status (some "DidNotStart".data) = some "DNS".data) ∧
    (" OK ".data.map pyLower ≠ [] ∧ " OK ".data.map pyLower ≠ "didnotstart".data ∧
     " OK ".data.map pyLower ≠ "didnotfinish".data ∧ " OK ".data.map pyLower ≠ "ok".data ∧
      map_status (some " OK ".data) = some "DISQ".data) :=
  ⟨⟨by decide, (status_mapping_total (some "DidNotStart".data)).1 (by decide)⟩,
   ⟨by decide, by decide, by decide, by decide,
    (status_mapping_total (some " OK ".data)).2.2.2.1
      ⟨by decide, by decide, by decide, by decide⟩⟩⟩

/-- C10: the status mapper never trims whitespace: a status that equals `ok`
only after stripping surrounding whitespace (and lower-casing) is non-empty
and different from `ok`, so it falls into the DISQ branch. -/
theorem map_status_no_trim (s : List Char)
    (h1 : pyStrip (s.map pyLower) = "ok".data)
    (h2 : s.map pyLower ≠ "ok".data) :
    map_status (some s) = some "DISQ".data := by
  have hne : s.map pyLower ≠ [] := by
    intro h
    rw [h] at h1
    exact absurd h1 (by decide)
  have hd1 : s.map pyLower ≠ "didnotstart".data := by
    intro h
    rw [h] at h1
    exact absurd h1 (by decide)
  have hd2 : s.map pyLower ≠ "didnotfinish".data := by
    intro h
    rw [h] at h1
    exact absurd h1 (by decide)
  simp only [map_status, Option.getD_some]
  rw [if_neg hd1, if_neg hd2, if_pos ⟨hne, h2⟩]

/-- Witness for `map_status_no_trim` at `" OK "`. -/
theorem map_status_no_trim_witness :
    pyStrip (" OK ".data.map pyLower) = "ok".data ∧
    " OK ".data.map pyLower ≠ "ok".data ∧
    map_status (some " OK ".data) = some "DISQ".data :=
  ⟨by decide, by decide, map_status_no_trim " OK ".data (by decide) (by decide)⟩

/-- C8: with zero input documents the run terminates immediately with the
diagnostic `SystemExit` (non-zero outcome) and produces no output. -/
theorem no_inputs_aborts :
    mainModel [] = .error "No *.xml files found!".data ∧
    ∀ out, mainModel [] ≠ .ok out := by
  refine ⟨rfl, fun out h => ?_⟩
  rw [show mainModel [] = .error "No *.xml files found!".data from rfl] at h
  exact absurd h (by simp)

/-- C1 counterexample: `normalize_class_name` is not idempotent.  On
`"x y z"` the first pass chops the trailing `" z"` and yields `"X y"`; the
second pass chops the now-trailing `" y"` and yields `"X"`. -/
theorem normalize_idem_counterexample :
    normalize_class_name (normalize_class_name "x y z".data) ≠
      normalize_class_name "x y z".data := by decide

/-- C2 counterexample: when one event holds two records for the same
competitor and category (positions 1 and 2), the cell keeps only the last
display `"19"` while the total accumulates both, so the total 39 is not the
sum 19 of the numeric cells. -/
theorem aggregate_total_counterexample :
    aGet (aggregate [[⟨[], ([], [], []), some 1, 20, []⟩,
                      ⟨[], ([], [], []), some 2, 19, []⟩]] []).totals ([], [], []) 0 ≠
    ((aGet (aggregate [[⟨[], ([], [], []), some 1, 20, []⟩,
                        ⟨[], ([], [], []), some 2, 19, []⟩]] []).cells
        ([], [], []) (emptyCells 1)).map digitContrib).sum := by decide

/-- A successful `mapExcept` means every element mapped successfully. -/
theorem mapExcept_ok {α β : Type} (g : α → Except (List Char) β) :
    ∀ (l : List α) (bs : List β), mapExcept g l = .ok bs →
      ∀ x ∈ l, ∃ b, g x = .ok b := by
  intro l
  induction l with
  | nil => simp
  | cons a t ih =>
    intro bs h x hx
    simp only [mapExcept] at h
    rcases hg : g a with e | b
    · rw [hg] at h
      exact absurd h (by simp)
    · rw [hg] at h
      rcases ht : mapExcept g t with e' | bs'
      · rw [ht] at h
        exact absurd h (by simp)
      · rcases List.mem_cons.mp hx with rfl | hx'
        · exact ⟨b, hg⟩
        · exact ih bs' ht x hx'

/-- An unparseable (or absent) date field makes `parse_event` raise. -/
theorem parse_event_error (f : XmlFile) (h : f.event_date.bind fromIso = none) :
    ∃ e, parse_event f = .error e := by
  obtain ⟨nm, ed, cls⟩ := f
  rcases ed with _ | ds
  · exact ⟨"TypeError: fromisoformat: argument must be str".data, rfl⟩
  · have h' : fromIso ds = none := by simpa using h
    exact ⟨"ValueError: Invalid isoformat string".data, by simp [parse_event, h']⟩

/-- C9: an event date that does not parse as a calendar date aborts the whole
run — `mainModel` never returns a report — while a malformed per-record
position never aborts: the event still parses whenever its date does, and the
record gets the defaults (absent position, 0 points). -/
theorem date_fatal_position_tolerated (files : List XmlFile) (f : XmlFile)
    (d : PyDate) (cname : List Char) (p : RawPerson) :
    (f ∈ files → f.event_date.bind fromIso = none →
      ∀ out, mainModel files ≠ .ok out) ∧
    (f.event_date.bind fromIso = some d → ∃ ev, parse_event f = .ok ev) ∧
    (pyInt p.pos_text = none →
      (parseRecord cname p).position = none ∧ (parseRecord cname p).points = 0) := by
  refine ⟨fun hmem hbad out h => ?_, fun hgood => ?_, fun hpos => ?_⟩
  · have hne : files ≠ [] := by
      intro he
      rw [he] at hmem
      exact absurd hmem (by simp)
    rw [mainModel, if_neg hne] at h
    rcases hm : mapExcept parse_event files with e | evs
    · rw [hm] at h
      exact absurd h (by simp)
    · rw [hm] at h
      obtain ⟨ev, hev⟩ := mapExcept_ok parse_event files evs hm f hmem
      obtain ⟨e, he⟩ := parse_event_error f hbad
      rw [hev] at he
      exact absurd he (by simp)
  · obtain ⟨nm, ed, cls⟩ := f
    rcases ed with _ | ds
    · exact absurd hgood (by simp)
    · have h' : fromIso ds = some d := by simpa using hgood
      simp [parse_event, h']
  · simp [parseRecord, parsePosition, hpos]

/-- Witness for `date_fatal_position_tolerated`: a file whose date text is
`"oops"`, a good file dated `2024-05-03`, and a person with position text
`"x"`. -/
theorem date_fatal_position_tolerated_witness :
    ((⟨none, some "oops".data, []⟩ : XmlFile) ∈ [(⟨none, some "oops".data, []⟩ : XmlFile)] ∧
     (⟨none, some "oops".data, []⟩ : XmlFile).event_date.bind fromIso = none ∧
     (∀ out, mainModel [⟨none, some "oops".data, []⟩] ≠ .ok out)) ∧
    ((⟨none, some "2024-05-03".data, []⟩ : XmlFile).event_date.bind fromIso =
        some ⟨2024, 5, 3⟩ ∧
     (∃ ev, parse_event ⟨none, some "2024-05-03".data, []⟩ = .ok ev)) ∧
    (pyInt "x".data = none ∧
     (parseRecord [] ⟨[], [], [], "x".data, []⟩).position = none ∧
     (parseRecord [] ⟨[], [], [], "x".data, []⟩).points = 0) :=
  ⟨⟨by decide, by decide,
    (date_fatal_position_tolerated [⟨none, some "oops".data, []⟩]
      ⟨none, some "oops".data, []⟩ ⟨2024, 5, 3⟩ [] ⟨[], [], [], "x".data, []⟩).1
      (by decide) (by decide)⟩,
   ⟨by decide,
    (date_fatal_position_tolerated [⟨none, some "oops".data, []⟩]
      ⟨none, some "2024-05-03".data, []⟩ ⟨2024, 5, 3⟩ [] ⟨[], [], [], "x".data, []⟩).2.1
      (by decide)⟩,
   ⟨by decide,
    (date_fatal_position_tolerated [⟨none, some "oops".data, []⟩]
      ⟨none, some "oops".data, []⟩ ⟨2024, 5, 3⟩ [] ⟨[], [], [], "x".data, []⟩).2.2
      (by decide)⟩⟩

/-- Storing under a key and reading the same key gives the stored value. -/
theorem aGet_aSet_same {α : Type} (d : List (PKey × α)) (k : PKey) (v dflt : α) :
    aGet (aSet d k v) k dflt = v := by
  induction d with
  | nil => simp [aSet, aGet]
  | cons e t ih =>
    obtain ⟨k', v'⟩ := e
    by_cases h : k' = k
    · simp [aSet, aGet, h]
    · simp [aSet, aGet, h, ih]

/-- Storing under a key leaves every other key's value unchanged. -/
theorem aGet_aSet_other {α : Type} (d : List (PKey × α)) (k k2 : PKey) (v dflt : α)
    (hne : k2 ≠ k) : aGet (aSet d k v) k2 dflt = aGet d k2 dflt := by
  induction d with
  | nil => simp [aSet, aGet, hne.symm]
  | cons e t ih =>
    obtain ⟨k', v'⟩ := e
    by_cases h : k' = k
    · subst h
      simp [aSet, aGet, hne.symm]
    · simp [aSet, aGet, h, ih]

/-- Effect of `procRec` on the processed record's own cells. -/
theorem procRec_cells_same (n idx : Nat) (st : Agg) (r : Record) :
    aGet (procRec n idx st r).cells r.person_key (emptyCells n) =
      (aGet st.cells r.person_key (emptyCells n)).set idx (displayOf r) := by
  by_cases hd : pyIsDigit (displayOf r) <;>
    simp [procRec, hd, aGet_aSet_same]

/-- `procRec` leaves other competitors' cells unchanged. -/
theorem procRec_cells_other (n idx : Nat) (st : Agg) (r : Record) (k : PKey)
    (hne : k ≠ r.person_key) :
    aGet (procRec n idx st r).cells k (emptyCells n) =
      aGet st.cells k (emptyCells n) := by
  by_cases hd : pyIsDigit (displayOf r) <;>
    simp [procRec, hd, aGet_aSet_other _ _ _ _ _ hne]

/-- Effect of `procRec` on the processed record's own total. -/
theorem procRec_totals_same (n idx : Nat) (st : Agg) (r : Record) :
    aGet (procRec n idx st r).totals r.person_key 0 =
      aGet st.totals r.person_key 0 + digitContrib (displayOf r) := by
  by_cases hd : pyIsDigit (displayOf r) <;>
    simp [procRec, hd, digitContrib, aGet_aSet_same]

/-- `procRec` leaves other competitors' totals unchanged. -/
theorem procRec_totals_other (n idx : Nat) (st : Agg) (r : Record) (k : PKey)
    (hne : k ≠ r.person_key) :
    aGet (procRec n idx st r).totals k 0 = aGet st.totals k 0 := by
  by_cases hd : pyIsDigit (displayOf r) <;>
    simp [procRec, hd, aGet_aSet_other _ _ _ _ _ hne]

/-- `lastDispK` on a matching head record. -/
theorem lastDispK_cons_pos (r : Record) (t : List Record) (k : PKey)
    (hk : r.person_key = k) :
    lastDispK (r :: t) k = some ((lastDispK t k).getD (displayOf r)) := by
  simp [lastDispK, keyMatches, List.filter_cons, hk, List.getLast?_cons,
    List.getLastD_eq_getLast?]

/-- `lastDispK` skips a non-matching head record. -/
theorem lastDispK_cons_neg (r : Record) (t : List Record) (k : PKey)
    (hk : ¬ r.person_key = k) :
    lastDispK (r :: t) k = lastDispK t k := by
  simp [lastDispK, keyMatches, List.filter_cons, hk]

/-- `contribK` on a matching head record. -/
theorem contribK_cons_pos (r : Record) (t : List Record) (k : PKey)
    (hk : r.person_key = k) :
    contribK (r :: t) k = digitContrib (displayOf r) + contribK t k := by
  simp [contribK, keyMatches, List.filter_cons, hk]

/-- `contribK` skips a non-matching head record. -/
theorem contribK_cons_neg (r : Record) (t : List Record) (k : PKey)
    (hk : ¬ r.person_key = k) :
    contribK (r :: t) k = contribK t k := by
  simp [contribK, keyMatches, List.filter_cons, hk]

/-- Cells after folding `procRec` over a record list: the last matching
record's display is written at `idx`, everything else is untouched. -/
theorem foldl_procRec_cells (n idx : Nat) :
    ∀ (rs : List Record) (st : Agg) (k : PKey),
      aGet ((rs.foldl (procRec n idx) st).cells) k (emptyCells n) =
        (match lastDispK rs k with
         | none => aGet st.cells k (emptyCells n)
         | some dsp => (aGet st.cells k (emptyCells n)).set idx dsp) := by
  intro rs
  induction rs with
  | nil =>
    intro st k
    simp [lastDispK, keyMatches]
  | cons r t ih =>
    intro st k
    rw [List.foldl_cons, ih]
    by_cases hk : r.person_key = k
    · rw [lastDispK_cons_pos r t k hk]
      have hsame := procRec_cells_same n idx st r
      rw [hk] at hsame
      rcases hd : lastDispK t k with _ | dsp
      · simp [hd, hsame]
      · simp [hd, hsame, List.set_set]
    · rw [lastDispK_cons_neg r t k hk]
      have hother := procRec_cells_other n idx st r k (fun h => hk h.symm)
      rcases hd : lastDispK t k with _ | dsp <;> simp [hd, hother]

/-- Totals after folding `procRec` over a record list: every matching
record's numeric display is accumulated. -/
theorem foldl_procRec_totals (n idx : Nat) :
    ∀ (rs : List Record) (st : Agg) (k : PKey),
      aGet ((rs.foldl (procRec n idx) st).totals) k 0 =
        aGet st.totals k 0 + contribK rs k := by
  intro rs
  induction rs with
  | nil =>
    intro st k
    simp [contribK, keyMatches]
  | cons r t ih =>
    intro st k
    rw [List.foldl_cons, ih]
    by_cases hk : r.person_key = k
    · have hsame := procRec_totals_same n idx st r
      rw [hk] at hsame
      rw [contribK_cons_pos r t k hk, hsame]
      ring
    · have hother := procRec_totals_other n idx st r k (fun h => hk h.symm)
      rw [contribK_cons_neg r t k hk, hother]

/-- Appending one event to the aggregation loop processes it last, at column
index `evs.length`. -/
theorem agg_foldl_append (cat : List Char) (n : Nat) (evs : List (List Record))
    (recs : List Record) (st0 : Agg) :
    ((evs ++ [recs]).enum.foldl (fun st p => procEvent cat n p.1 st p.2) st0) =
      procEvent cat n evs.length
        (evs.enum.foldl (fun st p => procEvent cat n p.1 st p.2) st0) recs := by
  rw [show (evs ++ [recs]).enum = evs.enum ++ [(evs.length, recs)] by
    simp [List.enum_append, List.enumFrom]]
  rw [List.foldl_append]
  rfl

/-- `lastDisp` reads through `lastDispK` on the category-filtered records. -/
theorem lastDisp_eq_lastDispK (recs : List Record) (cat : List Char) (k : PKey) :
    lastDisp recs cat k =
      (lastDispK (recs.filter (fun r => decide (r.class_name = cat))) k).getD [] := rfl

/-- `evContrib` reads through `contribK` on the category-filtered records. -/
theorem evContrib_eq_contribK (recs : List Record) (cat : List Char) (k : PKey) :
    evContrib recs cat k =
      contribK (recs.filter (fun r => decide (r.class_name = cat))) k := rfl

/-- `getD` past the end of the event list is the empty record list. -/
theorem getD_nil_of_le (l : List (List Record)) (i : Nat) (h : l.length ≤ i) :
    l.getD i [] = [] := by
  simp [List.getD, List.getElem?_eq_none h]

/-- `getD` inside the prefix ignores an appended event. -/
theorem getD_append_left_ev (evs : List (List Record)) (recs : List Record) (i : Nat)
    (h : i < evs.length) : (evs ++ [recs]).getD i [] = evs.getD i [] := by
  simp [List.getD, List.getElem?_append_left h]

/-- The appended event's column shows that event's records. -/
theorem getD_append_self (evs : List (List Record)) (recs : List Record) :
    (evs ++ [recs]).getD evs.length [] = recs := by
  simp [List.getD, List.getElem?_append_right (Nat.le_refl _)]

/-- An empty event displays nothing. -/
theorem lastDisp_nil (cat : List Char) (k : PKey) : lastDisp [] cat k = [] := rfl

/-- Out of the appended event's column, appending an event changes no
per-event display. -/
theorem lastDisp_append_getD (evs : List (List Record)) (recs : List Record)
    (cat : List Char) (k : PKey) (i : Nat) (hne : i ≠ evs.length) :
    lastDisp ((evs ++ [recs]).getD i []) cat k = lastDisp (evs.getD i []) cat k := by
  rcases Nat.lt_or_ge i evs.length with h | h
  · rw [getD_append_left_ev evs recs i h]
  · have h' : evs.length < i := lt_of_le_of_ne h (Ne.symm hne)
    rw [getD_nil_of_le (evs ++ [recs]) i (by simp; omega),
      getD_nil_of_le evs i (by omega)]

/-- `foldl_procRec_cells` when no record matches. -/
theorem foldl_procRec_cells_none (n idx : Nat) (rs : List Record) (st : Agg) (k : PKey)
    (h : lastDispK rs k = none) :
    aGet ((rs.foldl (procRec n idx) st).cells) k (emptyCells n) =
      aGet st.cells k (emptyCells n) := by
  rw [foldl_procRec_cells n idx rs st k, h]

/-- `foldl_procRec_cells` when some record matches. -/
theorem foldl_procRec_cells_some (n idx : Nat) (rs : List Record) (st : Agg) (k : PKey)
    (dsp : List Char) (h : lastDispK rs k = some dsp) :
    aGet ((rs.foldl (procRec n idx) st).cells) k (emptyCells n) =
      (aGet st.cells k (emptyCells n)).set idx dsp := by
  rw [foldl_procRec_cells n idx rs st k, h]

/-- Cells of the aggregation loop: competitor `k`'s row holds, at every
column, the display of the last matching record of that event. -/
theorem agg_cells_spec (cat : List Char) (n : Nat) :
    ∀ (evs : List (List Record)) (k : PKey), evs.length ≤ n →
      aGet ((evs.enum.foldl (fun st p => procEvent cat n p.1 st p.2)
          (⟨[], []⟩ : Agg)).cells) k (emptyCells n) =
        (List.range n).map (fun i => lastDisp (evs.getD i []) cat k) := by
  intro evs
  induction evs using List.reverseRecOn with
  | nil =>
    intro k hn
    simp only [List.enum_nil, List.foldl_nil]
    show emptyCells n = _
    rw [emptyCells]
    symm
    rw [List.eq_replicate_iff]
    refine ⟨by simp, ?_⟩
    intro x hx
    simp only [List.mem_map] at hx
    obtain ⟨i, _, rfl⟩ := hx
    rfl
  | append_singleton evs recs ih =>
    intro k hn
    rw [agg_foldl_append, procEvent]
    have hlen : evs.length ≤ n := by
      rw [List.length_append] at hn
      omega
    have hidx : evs.length < n := by
      rw [List.length_append] at hn
      simp only [List.length_singleton] at hn
      omega
    rcases hld : lastDispK (recs.filter (fun r => decide (r.class_name = cat))) k
      with _ | dsp
    · rw [foldl_procRec_cells_none n evs.length _ _ k hld, ih k hlen]
      have hl : lastDisp recs cat k = [] := by
        rw [lastDisp_eq_lastDispK, hld]
        rfl
      apply List.ext_getElem (by simp)
      intro i h1 h2
      simp only [List.getElem_map, List.getElem_range]
      by_cases hi : i = evs.length
      · subst hi
        rw [getD_append_self, hl, getD_nil_of_le evs evs.length (Nat.le_refl _),
          lastDisp_nil]
      · rw [lastDisp_append_getD evs recs cat k i hi]
    · rw [foldl_procRec_cells_some n evs.length _ _ k dsp hld, ih k hlen]
      have hl : lastDisp recs cat k = dsp := by
        rw [lastDisp_eq_lastDispK, hld]
        rfl
      apply List.ext_getElem (by simp)
      intro i h1 h2
      rw [List.getElem_set]
      simp only [List.getElem_map, List.getElem_range]
      by_cases hi : evs.length = i
      · rw [if_pos hi]
        subst hi
        rw [getD_append_self, hl]
      · rw [if_neg hi]
        rw [lastDisp_append_getD evs recs cat k i (fun h => hi h.symm)]

/-- Totals of the aggregation loop: competitor `k`'s total is the sum of the
per-event contributions, in event order. -/
theorem agg_totals_spec (cat : List Char) (n : Nat) :
    ∀ (evs : List (List Record)) (k : PKey),
      aGet ((evs.enum.foldl (fun st p => procEvent cat n p.1 st p.2)
          (⟨[], []⟩ : Agg)).totals) k 0 =
        (evs.map (fun recs => evContrib recs cat k)).sum := by
  intro evs
  induction evs using List.reverseRecOn with
  | nil =>
    intro k
    rfl
  | append_singleton evs recs ih =>
    intro k
    rw [agg_foldl_append, procEvent, foldl_procRec_totals, ih,
      ← evContrib_eq_contribK]
    simp

/-- C7: for a fixed multiset of events, per-category season totals do not
depend on the order of the input documents: any permutation of the event
list leaves every competitor's total unchanged (only column placement can
move). -/
theorem totals_perm_invariant (evs evs' : List (List Record)) (cat : List Char)
    (k : PKey) (hp : evs.Perm evs') :
    aGet (aggregate evs cat).totals k 0 = aGet (aggregate evs' cat).totals k 0 := by
  rw [aggregate, aggregate, agg_totals_spec cat evs.length evs k,
    agg_totals_spec cat evs'.length evs' k]
  exact (hp.map _).sum_eq

/-- Witness for `totals_perm_invariant`: two one-record events swapped. -/
theorem totals_perm_invariant_witness :
    ([[(⟨[], ([], [], []), some 1, 20, []⟩ : Record)],
      [(⟨[], ([], [], []), some 3, 18, []⟩ : Record)]]).Perm
      [[(⟨[], ([], [], []), some 3, 18, []⟩ : Record)],
       [(⟨[], ([], [], []), some 1, 20, []⟩ : Record)]] ∧
    aGet (aggregate [[(⟨[], ([], [], []), some 1, 20, []⟩ : Record)],
        [(⟨[], ([], [], []), some 3, 18, []⟩ : Record)]] []).totals ([], [], []) 0 =
      aGet (aggregate [[(⟨[], ([], [], []), some 3, 18, []⟩ : Record)],
        [(⟨[], ([], [], []), some 1, 20, []⟩ : Record)]] []).totals ([], [], []) 0 :=
  ⟨by decide, totals_perm_invariant _ _ [] ([], [], []) (by decide)⟩

/-- A record list with pairwise distinct competitor keys holds at most one
record of any one competitor. -/
theorem filter_key_len_le_one (l : List Record) (k : PKey)
    (hnd : (l.map (fun r => r.person_key)).Nodup) :
    (l.filter (fun r => decide (r.person_key = k))).length ≤ 1 := by
  induction l with
  | nil => simp
  | cons r t ih =>
    simp only [List.map_cons, List.nodup_cons] at hnd
    obtain ⟨hnotin, hnd'⟩ := hnd
    rw [List.filter_cons]
    by_cases hk : r.person_key = k
    · rw [if_pos (by simpa using hk)]
      have hempty : t.filter (fun r => decide (r.person_key = k)) = [] := by
        rw [List.filter_eq_nil_iff]
        intro x hx
        have hxk : ¬ x.person_key = k :=
          fun hxk => hnotin (List.mem_map.mpr ⟨x, hx, by rw [hxk, hk]⟩)
        simpa using hxk
      rw [hempty]
      simp
    · rw [if_neg (by simpa using hk)]
      exact ih hnd'

/-- With at most one record per competitor per event, the numeric value of
the surviving cell is exactly the event's contribution to the total. -/
theorem digitContrib_lastDisp (recs : List Record) (cat : List Char) (k : PKey)
    (hnd : ((recs.filter (fun r => decide (r.class_name = cat))).map
      (fun r => r.person_key)).Nodup) :
    digitContrib (lastDisp recs cat k) = evContrib recs cat k := by
  have hlen : (matchRecs recs cat k).length ≤ 1 :=
    filter_key_len_le_one _ k hnd
  rcases hm : matchRecs recs cat k with _ | ⟨r, ms⟩
  · rw [show lastDisp recs cat k = [] by simp [lastDisp, hm],
      show evContrib recs cat k = 0 by simp [evContrib, hm]]
    rfl
  · rw [hm] at hlen
    simp only [List.length_cons] at hlen
    have hms : ms = [] := by
      cases ms with
      | nil => rfl
      | cons a b => simp at hlen
    subst hms
    rw [show lastDisp recs cat k = displayOf r by simp [lastDisp, hm],
      show evContrib recs cat k = digitContrib (displayOf r) by simp [evContrib, hm]]

/-- Reading a whole list through in-range `getD` indices. -/
theorem range_map_getD {α : Type} (evs : List (List Record))
    (g : List Record → α) :
    (List.range evs.length).map (fun i => g (evs.getD i [])) = evs.map g := by
  apply List.ext_getElem (by simp)
  intro i h1 h2
  simp only [List.getElem_map, List.getElem_range]
  have hi : i < evs.length := by simpa using h1
  rw [show evs.getD i [] = evs[i] by simp [List.getD, List.getElem?_eq_getElem hi]]

/-- C2 (amended): provided each competitor has at most one record per event
in the category, the season total equals the sum of the numeric display
cells (non-numeric cells contribute 0), and a cell differs from the
"not entered" default only when the competitor has a record in that event
for that category. -/
theorem aggregate_cells_totals (evs : List (List Record)) (cat : List Char) (k : PKey)
    (huniq : ∀ recs ∈ evs,
      ((recs.filter (fun r => decide (r.class_name = cat))).map
        (fun r => r.person_key)).Nodup) :
    aGet (aggregate evs cat).totals k 0 =
      ((aGet (aggregate evs cat).cells k (emptyCells evs.length)).map
        digitContrib).sum ∧
    ∀ i, i < evs.length →
      (aGet (aggregate evs cat).cells k (emptyCells evs.length)).getD i [] ≠ [] →
      ∃ r ∈ evs.getD i [], r.class_name = cat ∧ r.person_key = k := by
  have hcells := agg_cells_spec cat evs.length evs k (Nat.le_refl _)
  have htot := agg_totals_spec cat evs.length evs k
  rw [aggregate] at *
  constructor
  · rw [hcells, htot, List.map_map]
    have hstep :
        (List.range evs.length).map
          (digitContrib ∘ fun i => lastDisp (evs.getD i []) cat k) =
        (List.range evs.length).map (fun i => evContrib (evs.getD i []) cat k) := by
      apply List.map_congr_left
      intro i hi
      have hilt : i < evs.length := by simpa using hi
      have hmem : evs.getD i [] ∈ evs := by
        rw [show evs.getD i [] = evs[i] by
          simp [List.getD, List.getElem?_eq_getElem hilt]]
        exact List.getElem_mem hilt
      exact digitContrib_lastDisp (evs.getD i []) cat k (huniq _ hmem)
    rw [hstep, range_map_getD evs (fun recs => evContrib recs cat k)]
  · intro i hi hcell
    rw [hcells] at hcell
    rw [show ((List.range evs.length).map
          (fun i => lastDisp (evs.getD i []) cat k)).getD i [] =
        lastDisp (evs.getD i []) cat k by
      simp [List.getD, List.getElem?_map, List.getElem?_range hi]] at hcell
    rcases hm : matchRecs (evs.getD i []) cat k with _ | ⟨r, ms⟩
    · refine absurd ?_ hcell
      simp only [lastDisp, hm]
      rfl
    · have hr : r ∈ matchRecs (evs.getD i []) cat k := by
        rw [hm]
        exact List.mem_cons_self r ms
      simp only [matchRecs, List.mem_filter, decide_eq_true_eq] at hr
      exact ⟨r, hr.1.1, hr.1.2, hr.2⟩

/-- Witness for `aggregate_cells_totals`: one competitor, two events
(16 points, then DNF). -/
theorem aggregate_cells_totals_witness :
    (∀ recs ∈ [[(⟨"M".data, ("A".data, [], []), some 5, 16, []⟩ : Record)],
        [(⟨"M".data, ("A".data, [], []), none, 0, "dnf".data⟩ : Record)]],
      ((recs.filter (fun r => decide (r.class_name = "M".data))).map
        (fun r => r.person_key)).Nodup) ∧
    (aGet (aggregate [[(⟨"M".data, ("A".data, [], []), some 5, 16, []⟩ : Record)],
        [(⟨"M".data, ("A".data, [], []), none, 0, "dnf".data⟩ : Record)]]
        "M".data).totals ("A".data, [], []) 0 =
      ((aGet (aggregate [[(⟨"M".data, ("A".data, [], []), some 5, 16, []⟩ : Record)],
          [(⟨"M".data, ("A".data, [], []), none, 0, "dnf".data⟩ : Record)]]
          "M".data).cells ("A".data, [], []) (emptyCells 2)).map digitContrib).sum ∧
      ∀ i, i < 2 →
        (aGet (aggregate [[(⟨"M".data, ("A".data, [], []), some 5, 16, []⟩ : Record)],
            [(⟨"M".data, ("A".data, [], []), none, 0, "dnf".data⟩ : Record)]]
            "M".data).cells ("A".data, [], []) (emptyCells 2)).getD i [] ≠ [] →
        ∃ r ∈ [[(⟨"M".data, ("A".data, [], []), some 5, 16, []⟩ : Record)],
            [(⟨"M".data, ("A".data, [], []), none, 0, "dnf".data⟩ : Record)]].getD i [],
          r.class_name = "M".data ∧ r.person_key = ("A".data, [], [])) :=
  ⟨by decide,
   aggregate_cells_totals
     [[(⟨"M".data, ("A".data, [], []), some 5, 16, []⟩ : Record)],
      [(⟨"M".data, ("A".data, [], []), none, 0, "dnf".data⟩ : Record)]]
     "M".data ("A".data, [], []) (by decide)⟩

/-- Membership in an insertion step. -/
theorem mem_insertRow (y r : Row) : ∀ l : List Row,
    (y ∈ insertRow r l ↔ y = r ∨ y ∈ l) := by
  intro l
  induction l with
  | nil => simp [insertRow]
  | cons s t ih =>
    simp only [insertRow]
    by_cases hlt : r.total < s.total
    · rw [if_pos hlt]
      simp only [List.mem_cons, ih]
      tauto
    · rw [if_neg hlt]
      simp only [List.mem_cons]

/-- Inserting preserves descending order by total. -/
theorem insertRow_sorted (r : Row) : ∀ l : List Row,
    List.Sorted (fun a b : Row => b.total ≤ a.total) l →
    List.Sorted (fun a b : Row => b.total ≤ a.total) (insertRow r l) := by
  intro l
  induction l with
  | nil =>
    intro _
    simp [insertRow]
  | cons s t ih =>
    intro h
    rw [List.sorted_cons] at h
    obtain ⟨hs, ht⟩ := h
    simp only [insertRow]
    by_cases hlt : r.total < s.total
    · rw [if_pos hlt]
      rw [List.sorted_cons]
      refine ⟨?_, ih ht⟩
      intro y hy
      rcases (mem_insertRow y r t).mp hy with rfl | hy'
      · exact le_of_lt hlt
      · exact hs y hy'
    · rw [if_neg hlt]
      rw [List.sorted_cons]
      refine ⟨?_, ?_⟩
      · intro y hy
        rcases List.mem_cons.mp hy with rfl | hy'
        · omega
        · exact le_trans (hs y hy') (by omega)
      · rw [List.sorted_cons]
        exact ⟨hs, ht⟩

/-- C6 part: the report's per-category sort is in descending-total order. -/
theorem sortRows_sorted : ∀ l : List Row,
    List.Sorted (fun a b : Row => b.total ≤ a.total) (sortRows l) := by
  intro l
  induction l with
  | nil => simp [sortRows]
  | cons r t ih => exact insertRow_sorted r (sortRows t) ih

/-- Insertion adds exactly one row. -/
theorem insertRow_length (r : Row) : ∀ l : List Row,
    (insertRow r l).length = l.length + 1 := by
  intro l
  induction l with
  | nil => rfl
  | cons s t ih =>
    simp only [insertRow]
    by_cases hlt : r.total < s.total
    · rw [if_pos hlt]
      simp [ih]
    · rw [if_neg hlt]
      simp

/-- Sorting preserves the number of rows. -/
theorem sortRows_length : ∀ l : List Row, (sortRows l).length = l.length := by
  intro l
  induction l with
  | nil => rfl
  | cons r t ih =>
    simp only [sortRows]
    rw [insertRow_length, ih]
    rfl

/-- Rows whose total misses `v` are transparent to an insertion. -/
theorem insertRow_filter_ne (r : Row) (v : Int) (hne : ¬ r.total = v) :
    ∀ l : List Row,
      (insertRow r l).filter (fun s => decide (s.total = v)) =
        l.filter (fun s => decide (s.total = v)) := by
  intro l
  induction l with
  | nil => simp [insertRow, hne]
  | cons s t ih =>
    simp only [insertRow]
    by_cases hlt : r.total < s.total
    · rw [if_pos hlt]
      rw [List.filter_cons, List.filter_cons]
      by_cases hsv : s.total = v
      · rw [if_pos (by simpa using hsv), if_pos (by simpa using hsv), ih]
      · rw [if_neg (by simpa using hsv), if_neg (by simpa using hsv), ih]
    · rw [if_neg hlt]
      rw [List.filter_cons, if_neg (by simpa using hne)]

/-- A row with total `v` is inserted in front of every other row with
total `v` (the rows it passes are strictly larger). -/
theorem insertRow_filter_eq (r : Row) (v : Int) (heq : r.total = v) :
    ∀ l : List Row,
      (insertRow r l).filter (fun s => decide (s.total = v)) =
        r :: l.filter (fun s => decide (s.total = v)) := by
  intro l
  induction l with
  | nil => simp [insertRow, heq]
  | cons s t ih =>
    simp only [insertRow]
    by_cases hlt : r.total < s.total
    · rw [if_pos hlt]
      have hsv : ¬ s.total = v := by omega
      rw [List.filter_cons, if_neg (by simpa using hsv), ih,
        List.filter_cons, if_neg (by simpa using hsv)]
    · rw [if_neg hlt]
      rw [List.filter_cons, if_pos (by simpa using heq)]

/-- C6 part (stability): restricted to any fixed total, the sorted rows are
exactly the unsorted rows in their original relative order. -/
theorem sortRows_filter (v : Int) : ∀ l : List Row,
    (sortRows l).filter (fun s => decide (s.total = v)) =
      l.filter (fun s => decide (s.total = v)) := by
  intro l
  induction l with
  | nil => rfl
  | cons r t ih =>
    simp only [sortRows]
    by_cases hrv : r.total = v
    · rw [insertRow_filter_eq r v hrv, ih, List.filter_cons,
        if_pos (by simpa using hrv)]
    · rw [insertRow_filter_ne r v hrv, ih, List.filter_cons,
        if_neg (by simpa using hrv)]

/-- The rank column of `rankRows` is `1, 2, ..., length`. -/
theorem rankRows_fst (l : List Row) :
    (rankRows l).map Prod.fst = List.range' 1 l.length := by
  simp only [rankRows, List.map_map]
  have h1 : (Prod.fst ∘ fun p : Nat × Row => (p.1 + 1, p.2)) =
      (fun i => i + 1) ∘ Prod.fst := rfl
  rw [h1, ← List.map_map, List.enum_map_fst]
  rw [List.range'_eq_map_range]
  apply List.map_congr_left
  intro a _
  omega

/-- `firstDedupAux` keeps exactly the unseen elements. -/
theorem mem_firstDedupAux {α : Type} [DecidableEq α] (x : α) :
    ∀ (l seen : List α), (x ∈ firstDedupAux seen l ↔ x ∈ l ∧ x ∉ seen) := by
  intro l
  induction l with
  | nil => simp [firstDedupAux]
  | cons y t ih =>
    intro seen
    simp only [firstDedupAux]
    by_cases hy : y ∈ seen
    · rw [if_pos hy, ih]
      constructor
      · rintro ⟨hx, hxs⟩
        exact ⟨List.mem_cons_of_mem y hx, hxs⟩
      · rintro ⟨hx, hxs⟩
        rcases List.mem_cons.mp hx with rfl | hx'
        · exact absurd hy hxs
        · exact ⟨hx', hxs⟩
    · rw [if_neg hy]
      constructor
      · intro hmem
        rcases List.mem_cons.mp hmem with rfl | hmem2
        · exact ⟨List.mem_cons_self x t, hy⟩
        · obtain ⟨hx, hxs⟩ := (ih (y :: seen)).mp hmem2
          exact ⟨List.mem_cons_of_mem y hx,
            fun hs => hxs (List.mem_cons_of_mem y hs)⟩
      · rintro ⟨hx, hxs⟩
        rcases List.mem_cons.mp hx with rfl | hx2
        · exact List.mem_cons_self x _
        · by_cases hxy : x = y
          · subst hxy
            exact List.mem_cons_self x _
          · refine List.mem_cons_of_mem y ((ih (y :: seen)).mpr ⟨hx2, ?_⟩)
            intro hs
            rcases List.mem_cons.mp hs with h | h
            · exact hxy h
            · exact hxs h

/-- `firstDedupAux` only depends on the membership of `seen`. -/
theorem firstDedupAux_congr {α : Type} [DecidableEq α] :
    ∀ (l s1 s2 : List α), (∀ x, x ∈ s1 ↔ x ∈ s2) →
      firstDedupAux s1 l = firstDedupAux s2 l := by
  intro l
  induction l with
  | nil => intro s1 s2 _; rfl
  | cons y t ih =>
    intro s1 s2 hmem
    simp only [firstDedupAux]
    by_cases hy : y ∈ s1
    · rw [if_pos hy, if_pos ((hmem y).mp hy)]
      exact ih s1 s2 hmem
    · rw [if_neg hy, if_neg (fun h => hy ((hmem y).mpr h))]
      refine congrArg (y :: ·) (ih (y :: s1) (y :: s2) ?_)
      intro x
      simp only [List.mem_cons]
      rw [hmem x]

/-- `firstDedupAux` over an append splits at the junction. -/
theorem firstDedupAux_append {α : Type} [DecidableEq α] :
    ∀ (l1 l2 seen : List α),
      firstDedupAux seen (l1 ++ l2) =
        firstDedupAux seen l1 ++ firstDedupAux (l1 ++ seen) l2 := by
  intro l1
  induction l1 with
  | nil =>
    intro l2 seen
    simp [firstDedupAux]
  | cons y t ih =>
    intro l2 seen
    rw [List.cons_append]
    simp only [firstDedupAux, List.cons_append, List.append_eq]
    by_cases hy : y ∈ seen
    · rw [if_pos hy, if_pos hy, ih]
      refine congrArg _ (firstDedupAux_congr l2 _ _ ?_)
      intro x
      simp only [List.mem_append, List.mem_cons]
      constructor
      · tauto
      · rintro (rfl | h | h)
        · exact Or.inr hy
        · exact Or.inl h
        · exact Or.inr h
    · rw [if_neg hy, if_neg hy, ih]
      rw [List.cons_append]
      refine congrArg (y :: ·) (congrArg _ (firstDedupAux_congr l2 _ _ ?_))
      intro x
      simp only [List.mem_append, List.mem_cons]
      tauto

/-- `firstDedupAux` output avoids `seen`, hence heads never repeat. -/
theorem nodup_firstDedupAux {α : Type} [DecidableEq α] :
    ∀ (l seen : List α), (firstDedupAux seen l).Nodup := by
  intro l
  induction l with
  | nil => intro seen; simp [firstDedupAux]
  | cons y t ih =>
    intro seen
    simp only [firstDedupAux]
    by_cases hy : y ∈ seen
    · rw [if_pos hy]
      exact ih seen
    · rw [if_neg hy]
      rw [List.nodup_cons]
      refine ⟨?_, ih (y :: seen)⟩
      intro hmem
      exact ((mem_firstDedupAux y t (y :: seen)).mp hmem).2 (List.mem_cons_self y seen)

/-- The distinct-first list has as many elements as there are distinct
values. -/
theorem firstDedup_length_card {α : Type} [DecidableEq α] (l : List α) :
    (firstDedup l).length = l.toFinset.card := by
  have hnd : (firstDedup l).Nodup := nodup_firstDedupAux l []
  have hset : (firstDedup l).toFinset = l.toFinset := by
    apply Finset.ext
    intro x
    simp only [List.mem_toFinset]
    rw [firstDedup, mem_firstDedupAux]
    simp
  rw [← List.toFinset_card_of_nodup hnd, hset]

/-- Updating a present key leaves the key sequence unchanged. -/
theorem aSet_keys_mem {α : Type} (k : PKey) (v : α) :
    ∀ d : List (PKey × α), k ∈ d.map Prod.fst →
      (aSet d k v).map Prod.fst = d.map Prod.fst := by
  intro d
  induction d with
  | nil => simp
  | cons e t ih =>
    intro h
    obtain ⟨k', v'⟩ := e
    simp only [aSet]
    by_cases hk : k' = k
    · rw [if_pos hk]
      simp
    · rw [if_neg hk]
      simp only [List.map_cons]
      refine congrArg (k' :: ·) (ih ?_)
      simp only [List.map_cons, List.mem_cons] at h
      rcases h with rfl | h
      · exact absurd rfl hk
      · exact h

/-- Storing a fresh key appends it to the key sequence. -/
theorem aSet_keys_not_mem {α : Type} (k : PKey) (v : α) :
    ∀ d : List (PKey × α), k ∉ d.map Prod.fst →
      (aSet d k v).map Prod.fst = d.map Prod.fst ++ [k] := by
  intro d
  induction d with
  | nil => simp [aSet]
  | cons e t ih =>
    intro h
    obtain ⟨k', v'⟩ := e
    simp only [List.map_cons, List.mem_cons] at h
    push_neg at h
    obtain ⟨h1, h2⟩ := h
    simp only [aSet]
    rw [if_neg (fun hk => h1 hk.symm)]
    simp only [List.map_cons, List.cons_append]
    exact congrArg (k' :: ·) (ih h2)

/-- `procRec` registers the record's competitor in insertion order. -/
theorem procRec_keys (n idx : Nat) (st : Agg) (r : Record) :
    (procRec n idx st r).cells.map Prod.fst =
      (if r.person_key ∈ st.cells.map Prod.fst then st.cells.map Prod.fst
       else st.cells.map Prod.fst ++ [r.person_key]) := by
  have hcells : (procRec n idx st r).cells =
      aSet st.cells r.person_key
        ((aGet st.cells r.person_key (emptyCells n)).set idx (displayOf r)) := by
    by_cases hd : pyIsDigit (displayOf r) <;> simp [procRec, hd]
  rw [hcells]
  by_cases hm : r.person_key ∈ st.cells.map Prod.fst
  · rw [if_pos hm, aSet_keys_mem _ _ _ hm]
  · rw [if_neg hm, aSet_keys_not_mem _ _ _ hm]

/-- Folding `procRec` over records registers competitors first-come
first-kept behind the keys already present. -/
theorem foldl_procRec_keys (n idx : Nat) :
    ∀ (rs : List Record) (st : Agg),
      ((rs.foldl (procRec n idx) st).cells).map Prod.fst =
        st.cells.map Prod.fst ++
          firstDedupAux (st.cells.map Prod.fst) (rs.map (fun r => r.person_key)) := by
  intro rs
  induction rs with
  | nil =>
    intro st
    simp [firstDedupAux]
  | cons r t ih =>
    intro st
    rw [List.foldl_cons, ih]
    simp only [List.map_cons, firstDedupAux]
    by_cases hm : r.person_key ∈ st.cells.map Prod.fst
    · rw [if_pos hm]
      rw [show (procRec n idx st r).cells.map Prod.fst = st.cells.map Prod.fst by
        rw [procRec_keys, if_pos hm]]
    · rw [if_neg hm]
      rw [show (procRec n idx st r).cells.map Prod.fst =
          st.cells.map Prod.fst ++ [r.person_key] by
        rw [procRec_keys, if_neg hm]]
      rw [List.append_assoc]
      simp only [List.singleton_append]
      refine congrArg _ (congrArg (r.person_key :: ·)
        (firstDedupAux_congr _ _ _ ?_))
      intro x
      simp only [List.mem_append, List.mem_cons]
      tauto

/-- The aggregation loop registers, per category, every competitor in order
of first appearance across the chronologically ordered events. -/
theorem agg_keys_spec (cat : List Char) (n : Nat) :
    ∀ (evs : List (List Record)),
      ((evs.enum.foldl (fun st p => procEvent cat n p.1 st p.2)
          (⟨[], []⟩ : Agg)).cells).map Prod.fst =
        firstDedup ((catRecs evs cat).map (fun r => r.person_key)) := by
  intro evs
  induction evs using List.reverseRecOn with
  | nil => rfl
  | append_singleton evs recs ih =>
    rw [agg_foldl_append, procEvent, foldl_procRec_keys, ih]
    have hflatten : catRecs (evs ++ [recs]) cat =
        catRecs evs cat ++ recs.filter (fun r => decide (r.class_name = cat)) := by
      rw [catRecs, catRecs, List.flatten_append, List.filter_append]
      simp
    rw [hflatten, List.map_append, firstDedup, firstDedup, firstDedupAux_append]
    refine congrArg _ (firstDedupAux_congr _ _ _ ?_)
    intro x
    simp only [List.mem_append]
    rw [mem_firstDedupAux]
    simp

/-- C6: within every category section the data rows are sorted by descending
season total; the rank column is the contiguous sequence `1..K` where `K` is
the number of distinct competitors appearing in that category; rows with
equal totals keep the base order (the sort is stable), and the base order is
the order of first appearance of each competitor in the chronologically
ordered input. -/
theorem category_rows_sorted_ranked (evs : List (List Record)) (cat : List Char) :
    List.Sorted (fun a b : Row => b.total ≤ a.total)
      (sortRows (rowsOf (aggregate evs cat))) ∧
    (catSection evs cat).map Prod.fst =
      List.range' 1 ((catRecs evs cat).map (fun r => r.person_key)).toFinset.card ∧
    (∀ v : Int,
      (sortRows (rowsOf (aggregate evs cat))).filter
          (fun s => decide (s.total = v)) =
        (rowsOf (aggregate evs cat)).filter (fun s => decide (s.total = v))) ∧
    (rowsOf (aggregate evs cat)).map (fun r => (r.given, r.family, r.pid)) =
      firstDedup ((catRecs evs cat).map (fun r => r.person_key)) := by
  have hkeys : (aggregate evs cat).cells.map Prod.fst =
      firstDedup ((catRecs evs cat).map (fun r => r.person_key)) := by
    rw [aggregate]
    exact agg_keys_spec cat evs.length evs
  have hrowkeys :
      (rowsOf (aggregate evs cat)).map (fun r => (r.given, r.family, r.pid)) =
        (aggregate evs cat).cells.map Prod.fst := by
    rw [rowsOf, List.map_map]
    apply List.map_congr_left
    intro p _
    simp
  refine ⟨sortRows_sorted _, ?_, fun v => sortRows_filter v _, ?_⟩
  · rw [catSection, rankRows_fst, sortRows_length]
    have h1 : (rowsOf (aggregate evs cat)).length =
        ((aggregate evs cat).cells.map Prod.fst).length := by
      simp [rowsOf]
    rw [h1, hkeys, firstDedup_length_card]
  · rw [hrowkeys, hkeys]

/-- Check a boolean character fact on all 128 ASCII code points at once. -/
theorem ascii_all (p : Char → Bool)
    (hall : (List.range 128).all (fun n => p (Char.ofNat n)) = true) :
    ∀ c : Char, c.toNat < 128 → p c = true := by
  intro c hc
  have h2 := List.all_eq_true.mp hall c.toNat (List.mem_range.mpr hc)
  rwa [Char.ofNat_toNat] at h2

/-- Plain characters are ASCII. -/
theorem plainChar_ascii (c : Char) (h : plainChar c = true) : c.toNat < 128 := by
  simp only [plainChar, Bool.and_eq_true, decide_eq_true_eq] at h
  exact h.1.1

/-- Plain characters are not whitespace. -/
theorem plainChar_not_ws (c : Char) (h : plainChar c = true) :
    isPyWhitespace c = false := by
  simp only [plainChar, Bool.and_eq_true, Bool.not_eq_true'] at h
  exact h.1.2

/-- Plain characters are not dash-class. -/
theorem plainChar_not_dash (c : Char) (h : plainChar c = true) :
    isDashChar c = false := by
  simp only [plainChar, Bool.and_eq_true, Bool.not_eq_true'] at h
  exact h.2

/-- Lower-casing keeps a character plain. -/
theorem pyLower_plain (c : Char) (h : plainChar c = true) :
    plainChar (pyLower c) = true := by
  have hb := ascii_all (fun c => !plainChar c || plainChar (pyLower c))
    (by decide) c (plainChar_ascii c h)
  simpa [h] using hb

/-- Lower-casing is idempotent on plain characters. -/
theorem pyLower_fix (c : Char) (h : plainChar c = true) :
    pyLower (pyLower c) = pyLower c := by
  have hb := ascii_all (fun c => !plainChar c || (pyLower (pyLower c) == pyLower c))
    (by decide) c (plainChar_ascii c h)
  simpa [h] using hb

/-- Lower-casing undoes upper-casing on plain, already lower characters. -/
theorem pyLower_pyUpper (c : Char) (h : plainChar c = true) (hl : pyLower c = c) :
    pyLower (pyUpper c) = c := by
  have hb := ascii_all
    (fun c => !plainChar c || !(pyLower c == c) || (pyLower (pyUpper c) == c))
    (by decide) c (plainChar_ascii c h)
  simpa [h, hl] using hb

/-- `dropWhile` is the identity when no character satisfies the test. -/
theorem dropWhile_id (p : Char → Bool) :
    ∀ l : List Char, (∀ c ∈ l, p c = false) → l.dropWhile p = l := by
  intro l
  cases l with
  | nil => intro _; rfl
  | cons c t =>
    intro h
    rw [List.dropWhile_cons, if_neg]
    simp [h c (List.mem_cons_self c t)]

/-- `str.strip()` is the identity on whitespace-free strings. -/
theorem pyStrip_id (l : List Char) (h : ∀ c ∈ l, isPyWhitespace c = false) :
    pyStrip l = l := by
  rw [pyStrip, dropWhile_id _ l h,
    dropWhile_id _ l.reverse (fun c hc => h c (List.mem_reverse.mp hc)),
    List.reverse_reverse]

/-- The dash substitution is the identity on dash-free strings. -/
theorem dashSubAux_id : ∀ l : List Char, (∀ c ∈ l, isDashChar c = false) →
    dashSubAux false l = l := by
  intro l
  induction l with
  | nil => intro _; rfl
  | cons c t ih =>
    intro h
    simp only [dashSubAux]
    rw [if_neg (by simp [h c (List.mem_cons_self c t)])]
    exact congrArg (c :: ·) (ih (fun c hc => h c (List.mem_cons_of_mem _ hc)))

/-- The whitespace substitution is the identity on whitespace-free strings. -/
theorem wsSubAux_id : ∀ l : List Char, (∀ c ∈ l, isPyWhitespace c = false) →
    wsSubAux false l = l := by
  intro l
  induction l with
  | nil => intro _; rfl
  | cons c t ih =>
    intro h
    simp only [wsSubAux]
    rw [if_neg (by simp [h c (List.mem_cons_self c t)])]
    exact congrArg (c :: ·) (ih (fun c hc => h c (List.mem_cons_of_mem _ hc)))

/-- The trailing-letter chop is the identity on space-free strings. -/
theorem chopTail_id (l : List Char) (h : ∀ c ∈ l, c ≠ ' ') : chopTail l = l := by
  rcases hr : l.reverse with _ | ⟨c, t⟩
  · simp [chopTail, hr]
  · rcases t with _ | ⟨s, r⟩
    · simp [chopTail, hr]
    · have hl : l = (c :: s :: r).reverse := by
        rw [← hr, List.reverse_reverse]
      have hs : s ∈ l := by
        rw [hl]
        simp
      simp only [chopTail, hr]
      rw [if_neg (fun hc => (h s hs) hc.1)]

/-- NFKD is the identity on strings without ž or Ž. -/
theorem nfkd_id : ∀ l : List Char, (∀ c ∈ l, c ≠ 'ž' ∧ c ≠ 'Ž') → nfkd l = l := by
  intro l
  induction l with
  | nil => intro _; rfl
  | cons c t ih =>
    intro h
    obtain ⟨h1, h2⟩ := h c (List.mem_cons_self c t)
    simp only [nfkd, nfkdChar]
    rw [if_neg h1, if_neg h2]
    exact congrArg (c :: ·) (ih (fun c hc => h c (List.mem_cons_of_mem _ hc)))

/-- NFC is the identity on caron-free strings. -/
theorem nfc_id : ∀ l : List Char, (∀ c ∈ l, c ≠ '\u030C') → nfc l = l
  | [], _ => rfl
  | [a], _ => rfl
  | a :: b :: t, h => by
    have hb : b ≠ '\u030C' := h b (by simp)
    simp only [nfc]
    rw [if_neg (fun hc => hb hc.2), if_neg (fun hc => hb hc.2)]
    exact congrArg (a :: ·)
      (nfc_id (b :: t) (fun c hc => h c (List.mem_cons_of_mem _ hc)))

/-- NFKD never produces the empty string from a non-empty one. -/
theorem nfkd_eq_nil (t : List Char) (h : nfkd t = []) : t = [] := by
  cases t with
  | nil => rfl
  | cons c t' =>
    exfalso
    simp only [nfkd, nfkdChar] at h
    by_cases h1 : c = 'ž'
    · rw [if_pos h1] at h
      simp at h
    · rw [if_neg h1] at h
      by_cases h2 : c = 'Ž'
      · rw [if_pos h2] at h
        simp at h
      · rw [if_neg h2] at h
        simp at h

/-- The head of an NFKD image on caron-free input is never the caron. -/
theorem nfkd_head_ne_caron (t : List Char) (b : Char) (t2 : List Char)
    (hc : ∀ c ∈ t, c ≠ '\u030C') (h : nfkd t = b :: t2) : b ≠ '\u030C' := by
  cases t with
  | nil => simp [nfkd] at h
  | cons d t' =>
    simp only [nfkd, nfkdChar] at h
    by_cases h1 : d = 'ž'
    · rw [if_pos h1] at h
      simp only [List.cons_append] at h
      have hb : b = 'z' := (List.cons.injEq _ _ _ _).mp h |>.1.symm
      rw [hb]
      decide
    · rw [if_neg h1] at h
      by_cases h2 : d = 'Ž'
      · rw [if_pos h2] at h
        simp only [List.cons_append] at h
        have hb : b = 'Z' := (List.cons.injEq _ _ _ _).mp h |>.1.symm
        rw [hb]
        decide
      · rw [if_neg h2] at h
        simp only [List.singleton_append] at h
        have hb : b = d := (List.cons.injEq _ _ _ _).mp h |>.1.symm
        rw [hb]
        exact hc d (List.mem_cons_self d t')

/-- Recomposition undoes decomposition on caron-free strings. -/
theorem nfc_nfkd : ∀ l : List Char, (∀ c ∈ l, c ≠ '\u030C') → nfc (nfkd l) = l
  | [], _ => rfl
  | c :: t, h => by
    have hrec := nfc_nfkd t (fun d hd => h d (List.mem_cons_of_mem _ hd))
    by_cases hz : c = 'ž'
    · subst hz
      show nfc (nfkdChar 'ž' ++ nfkd t) = 'ž' :: t
      rw [show nfkdChar 'ž' = ['z', '\u030C'] from rfl]
      simp only [List.cons_append, List.nil_append]
      rw [show nfc ('z' :: '\u030C' :: nfkd t) = 'ž' :: nfc (nfkd t) by
        simp only [nfc]
        rw [if_pos (by decide)]]
      rw [hrec]
    · by_cases hZ : c = 'Ž'
      · subst hZ
        show nfc (nfkdChar 'Ž' ++ nfkd t) = 'Ž' :: t
        rw [show nfkdChar 'Ž' = ['Z', '\u030C'] from rfl]
        simp only [List.cons_append, List.nil_append]
        rw [show nfc ('Z' :: '\u030C' :: nfkd t) = 'Ž' :: nfc (nfkd t) by
          simp only [nfc]
          rw [if_neg (by intro hx; exact absurd hx.1 (by decide)), if_pos (by decide)]]
        rw [hrec]
      · show nfc (nfkdChar c ++ nfkd t) = c :: t
        rw [show nfkdChar c = [c] by simp [nfkdChar, hz, hZ]]
        simp only [List.singleton_append]
        rcases ht : nfkd t with _ | ⟨b, t2⟩
        · rw [show nfc [c] = [c] from rfl]
          rw [nfkd_eq_nil t ht]
        · have hb : b ≠ '\u030C' :=
            nfkd_head_ne_caron t b t2 (fun d hd => h d (List.mem_cons_of_mem _ hd)) ht
          rw [show nfc (c :: b :: t2) = c :: nfc (b :: t2) by
            simp only [nfc]
            rw [if_neg (fun hx => hb hx.2), if_neg (fun hx => hb hx.2)]]
          rw [← ht, hrec]

/-- A list starts with `muzi` exactly when it is `muzi` plus a remainder. -/
theorem startsMuzi_iff (l : List Char) :
    startsMuzi l = true ↔ ∃ r, l = 'm' :: 'u' :: 'z' :: 'i' :: r := by
  rcases l with _ | ⟨a, _ | ⟨b, _ | ⟨c, _ | ⟨d, r⟩⟩⟩⟩ <;>
    simp [startsMuzi, and_assoc]

/-- A list starts with `zeny` exactly when it is `zeny` plus a remainder. -/
theorem startsZeny_iff (l : List Char) :
    startsZeny l = true ↔ ∃ r, l = 'z' :: 'e' :: 'n' :: 'y' :: r := by
  rcases l with _ | ⟨a, _ | ⟨b, _ | ⟨c, _ | ⟨d, r⟩⟩⟩⟩ <;>
    simp [startsZeny, and_assoc]

/-- A list not headed by `m` does not start with `muzi`. -/
theorem startsMuzi_ne (c : Char) (t : List Char) (h : ¬ c = 'm') :
    startsMuzi (c :: t) = false := by
  simp [startsMuzi, h]

/-- A list not headed by `z` does not start with `zeny`. -/
theorem startsZeny_ne (c : Char) (t : List Char) (h : ¬ c = 'z') :
    startsZeny (c :: t) = false := by
  simp [startsZeny, h]

/-- `repMuzi` on a replacement site. -/
theorem repMuzi_eq_pos (r : List Char) :
    repMuzi ('m' :: 'u' :: 'z' :: 'i' :: r) =
      'm' :: 'u' :: 'ž' :: 'i' :: repMuzi r := rfl

/-- `repMuzi` off replacement sites. -/
theorem repMuzi_eq_neg (a : Char) (t : List Char) (h : startsMuzi (a :: t) = false) :
    repMuzi (a :: t) = a :: repMuzi t := by
  rw [repMuzi.eq_def]
  split
  · simp_all
  · rename_i a2 t2 heq
    rw [List.cons.injEq] at heq
    obtain ⟨rfl, rfl⟩ := heq
    rw [if_neg (by simp [h])]

/-- `repZeny` on a replacement site. -/
theorem repZeny_eq_pos (r : List Char) :
    repZeny ('z' :: 'e' :: 'n' :: 'y' :: r) =
      'ž' :: 'e' :: 'n' :: 'y' :: repZeny r := rfl

/-- `repZeny` off replacement sites. -/
theorem repZeny_eq_neg (a : Char) (t : List Char) (h : startsZeny (a :: t) = false) :
    repZeny (a :: t) = a :: repZeny t := by
  rw [repZeny.eq_def]
  split
  · simp_all
  · rename_i a2 t2 heq
    rw [List.cons.injEq] at heq
    obtain ⟨rfl, rfl⟩ := heq
    rw [if_neg (by simp [h])]

/-- The replaced block `muži` no longer starts with `muzi`. -/
theorem sM_muzi_out (r : List Char) :
    startsMuzi ('m' :: 'u' :: 'ž' :: 'i' :: r) = false := rfl

/-- The replaced block `ženy` does not start with `zeny`. -/
theorem sZ_zeny_out (r : List Char) :
    startsZeny ('ž' :: 'e' :: 'n' :: 'y' :: r) = false := rfl

/-- A decomposed `ž` does not start `zeny` (the caron breaks it). -/
theorem sZ_z_caron (r : List Char) :
    startsZeny ('z' :: '\u030C' :: r) = false := rfl

/-- One step of `hasMuzi`. -/
theorem hasMuzi_cons (c : Char) (t : List Char) :
    hasMuzi (c :: t) = (startsMuzi (c :: t) || hasMuzi t) := rfl

/-- One step of `hasZeny`. -/
theorem hasZeny_cons (c : Char) (t : List Char) :
    hasZeny (c :: t) = (startsZeny (c :: t) || hasZeny t) := rfl

/-- No occurrence in a list means none in its tail. -/
theorem hasMuzi_tail (c : Char) (t : List Char) (h : hasMuzi (c :: t) = false) :
    hasMuzi t = false := by
  rw [hasMuzi_cons, Bool.or_eq_false_iff] at h
  exact h.2

/-- No occurrence in a list means no occurrence at its head. -/
theorem hasMuzi_head (c : Char) (t : List Char) (h : hasMuzi (c :: t) = false) :
    startsMuzi (c :: t) = false := by
  rw [hasMuzi_cons, Bool.or_eq_false_iff] at h
  exact h.1

/-- No occurrence in a list means none in its tail (`zeny`). -/
theorem hasZeny_tail (c : Char) (t : List Char) (h : hasZeny (c :: t) = false) :
    hasZeny t = false := by
  rw [hasZeny_cons, Bool.or_eq_false_iff] at h
  exact h.2

/-- No occurrence in a list means no occurrence at its head (`zeny`). -/
theorem hasZeny_head (c : Char) (t : List Char) (h : hasZeny (c :: t) = false) :
    startsZeny (c :: t) = false := by
  rw [hasZeny_cons, Bool.or_eq_false_iff] at h
  exact h.1

/-- `str.replace` is the identity when the pattern does not occur. -/
theorem noMuzi_id : ∀ l : List Char, hasMuzi l = false → repMuzi l = l := by
  intro l
  induction l with
  | nil => intro _; rfl
  | cons c t ih =>
    intro h
    rw [repMuzi_eq_neg c t (hasMuzi_head c t h), ih (hasMuzi_tail c t h)]

/-- `str.replace` is the identity when the pattern does not occur (`zeny`). -/
theorem noZeny_id : ∀ l : List Char, hasZeny l = false → repZeny l = l := by
  intro l
  induction l with
  | nil => intro _; rfl
  | cons c t ih =>
    intro h
    rw [repZeny_eq_neg c t (hasZeny_head c t h), ih (hasZeny_tail c t h)]

/-- If a `repMuzi` output starts with `u z i`, the input did too. -/
theorem repMuzi_uzi (t r : List Char) (h : repMuzi t = 'u' :: 'z' :: 'i' :: r) :
    ∃ r2, t = 'u' :: 'z' :: 'i' :: r2 := by
  rcases t with _ | ⟨a, t1⟩
  · exact absurd h (by simp [repMuzi])
  by_cases hs : startsMuzi (a :: t1) = true
  · obtain ⟨r1, hr1⟩ := (startsMuzi_iff _).mp hs
    rw [hr1, repMuzi_eq_pos] at h
    exact absurd (List.cons_eq_cons.mp h).1 (by decide)
  rw [repMuzi_eq_neg a t1 (by simpa using hs)] at h
  obtain ⟨rfl, h1⟩ := List.cons_eq_cons.mp h
  rcases t1 with _ | ⟨b, t2⟩
  · exact absurd h1 (by simp [repMuzi])
  by_cases hs2 : startsMuzi (b :: t2) = true
  · obtain ⟨r1, hr1⟩ := (startsMuzi_iff _).mp hs2
    rw [hr1, repMuzi_eq_pos] at h1
    exact absurd (List.cons_eq_cons.mp h1).1 (by decide)
  rw [repMuzi_eq_neg b t2 (by simpa using hs2)] at h1
  obtain ⟨rfl, h2⟩ := List.cons_eq_cons.mp h1
  rcases t2 with _ | ⟨c, t3⟩
  · exact absurd h2 (by simp [repMuzi])
  by_cases hs3 : startsMuzi (c :: t3) = true
  · obtain ⟨r1, hr1⟩ := (startsMuzi_iff _).mp hs3
    rw [hr1, repMuzi_eq_pos] at h2
    exact absurd (List.cons_eq_cons.mp h2).1 (by decide)
  rw [repMuzi_eq_neg c t3 (by simpa using hs3)] at h2
  obtain ⟨rfl, h3⟩ := List.cons_eq_cons.mp h2
  exact ⟨t3, rfl⟩

/-- If a `repZeny` output starts with `u z i`, the input did too. -/
theorem repZeny_uzi (t r : List Char) (h : repZeny t = 'u' :: 'z' :: 'i' :: r) :
    ∃ r2, t = 'u' :: 'z' :: 'i' :: r2 := by
  rcases t with _ | ⟨a, t1⟩
  · exact absurd h (by simp [repZeny])
  by_cases hs : startsZeny (a :: t1) = true
  · obtain ⟨r1, hr1⟩ := (startsZeny_iff _).mp hs
    rw [hr1, repZeny_eq_pos] at h
    exact absurd (List.cons_eq_cons.mp h).1 (by decide)
  rw [repZeny_eq_neg a t1 (by simpa using hs)] at h
  obtain ⟨rfl, h1⟩ := List.cons_eq_cons.mp h
  rcases t1 with _ | ⟨b, t2⟩
  · exact absurd h1 (by simp [repZeny])
  by_cases hs2 : startsZeny (b :: t2) = true
  · obtain ⟨r1, hr1⟩ := (startsZeny_iff _).mp hs2
    rw [hr1, repZeny_eq_pos] at h1
    exact absurd (List.cons_eq_cons.mp h1).1 (by decide)
  rw [repZeny_eq_neg b t2 (by simpa using hs2)] at h1
  obtain ⟨rfl, h2⟩ := List.cons_eq_cons.mp h1
  rcases t2 with _ | ⟨c, t3⟩
  · exact absurd h2 (by simp [repZeny])
  by_cases hs3 : startsZeny (c :: t3) = true
  · obtain ⟨r1, hr1⟩ := (startsZeny_iff _).mp hs3
    rw [hr1, repZeny_eq_pos] at h2
    exact absurd (List.cons_eq_cons.mp h2).1 (by decide)
  rw [repZeny_eq_neg c t3 (by simpa using hs3)] at h2
  obtain ⟨rfl, h3⟩ := List.cons_eq_cons.mp h2
  exact ⟨t3, rfl⟩

/-- If a `repZeny` output starts with `e n y`, the input did too. -/
theorem repZeny_eny (t r : List Char) (h : repZeny t = 'e' :: 'n' :: 'y' :: r) :
    ∃ r2, t = 'e' :: 'n' :: 'y' :: r2 := by
  rcases t with _ | ⟨a, t1⟩
  · exact absurd h (by simp [repZeny])
  by_cases hs : startsZeny (a :: t1) = true
  · obtain ⟨r1, hr1⟩ := (startsZeny_iff _).mp hs
    rw [hr1, repZeny_eq_pos] at h
    exact absurd (List.cons_eq_cons.mp h).1 (by decide)
  rw [repZeny_eq_neg a t1 (by simpa using hs)] at h
  obtain ⟨rfl, h1⟩ := List.cons_eq_cons.mp h
  rcases t1 with _ | ⟨b, t2⟩
  · exact absurd h1 (by simp [repZeny])
  by_cases hs2 : startsZeny (b :: t2) = true
  · obtain ⟨r1, hr1⟩ := (startsZeny_iff _).mp hs2
    rw [hr1, repZeny_eq_pos] at h1
    exact absurd (List.cons_eq_cons.mp h1).1 (by decide)
  rw [repZeny_eq_neg b t2 (by simpa using hs2)] at h1
  obtain ⟨rfl, h2⟩ := List.cons_eq_cons.mp h1
  rcases t2 with _ | ⟨c, t3⟩
  · exact absurd h2 (by simp [repZeny])
  by_cases hs3 : startsZeny (c :: t3) = true
  · obtain ⟨r1, hr1⟩ := (startsZeny_iff _).mp hs3
    rw [hr1, repZeny_eq_pos] at h2
    exact absurd (List.cons_eq_cons.mp h2).1 (by decide)
  rw [repZeny_eq_neg c t3 (by simpa using hs3)] at h2
  obtain ⟨rfl, h3⟩ := List.cons_eq_cons.mp h2
  exact ⟨t3, rfl⟩

/-- Unfolding `nfkd` one character. -/
theorem nfkd_cons (c : Char) (t : List Char) : nfkd (c :: t) = nfkdChar c ++ nfkd t := rfl

/-- The decomposition of ž. -/
theorem nfkdChar_z : nfkdChar 'ž' = ['z', '\u030C'] := rfl

/-- The decomposition of Ž. -/
theorem nfkdChar_Zc : nfkdChar 'Ž' = ['Z', '\u030C'] := rfl

/-- Every other character decomposes to itself. -/
theorem nfkdChar_other (c : Char) (h1 : ¬ c = 'ž') (h2 : ¬ c = 'Ž') :
    nfkdChar c = [c] := by
  simp [nfkdChar, h1, h2]

/-- If an NFKD image starts with `u z i`, the pre-image did too. -/
theorem nfkd_uzi (t r : List Char) (h : nfkd t = 'u' :: 'z' :: 'i' :: r) :
    ∃ r2, t = 'u' :: 'z' :: 'i' :: r2 := by
  rcases t with _ | ⟨a, t1⟩
  · exact absurd h (by simp [nfkd])
  rw [nfkd_cons] at h
  by_cases ha1 : a = 'ž'
  · rw [ha1, nfkdChar_z, List.cons_append, List.cons_append, List.nil_append] at h
    exact absurd (List.cons_eq_cons.mp h).1 (by decide)
  by_cases ha2 : a = 'Ž'
  · rw [ha2, nfkdChar_Zc, List.cons_append, List.cons_append, List.nil_append] at h
    exact absurd (List.cons_eq_cons.mp h).1 (by decide)
  rw [nfkdChar_other a ha1 ha2, List.singleton_append] at h
  obtain ⟨rfl, h1⟩ := List.cons_eq_cons.mp h
  rcases t1 with _ | ⟨b, t2⟩
  · exact absurd h1 (by simp [nfkd])
  rw [nfkd_cons] at h1
  by_cases hb1 : b = 'ž'
  · rw [hb1, nfkdChar_z, List.cons_append, List.cons_append, List.nil_append] at h1
    exact absurd (List.cons_eq_cons.mp (List.cons_eq_cons.mp h1).2).1 (by decide)
  by_cases hb2 : b = 'Ž'
  · rw [hb2, nfkdChar_Zc, List.cons_append, List.cons_append, List.nil_append] at h1
    exact absurd (List.cons_eq_cons.mp h1).1 (by decide)
  rw [nfkdChar_other b hb1 hb2, List.singleton_append] at h1
  obtain ⟨rfl, h2⟩ := List.cons_eq_cons.mp h1
  rcases t2 with _ | ⟨c, t3⟩
  · exact absurd h2 (by simp [nfkd])
  rw [nfkd_cons] at h2
  by_cases hc1 : c = 'ž'
  · rw [hc1, nfkdChar_z, List.cons_append, List.cons_append, List.nil_append] at h2
    exact absurd (List.cons_eq_cons.mp h2).1 (by decide)
  by_cases hc2 : c = 'Ž'
  · rw [hc2, nfkdChar_Zc, List.cons_append, List.cons_append, List.nil_append] at h2
    exact absurd (List.cons_eq_cons.mp h2).1 (by decide)
  rw [nfkdChar_other c hc1 hc2, List.singleton_append] at h2
  obtain ⟨rfl, h3⟩ := List.cons_eq_cons.mp h2
  exact ⟨t3, rfl⟩

/-- If an NFKD image starts with `e n y`, the pre-image did too. -/
theorem nfkd_eny (t r : List Char) (h : nfkd t = 'e' :: 'n' :: 'y' :: r) :
    ∃ r2, t = 'e' :: 'n' :: 'y' :: r2 := by
  rcases t with _ | ⟨a, t1⟩
  · exact absurd h (by simp [nfkd])
  rw [nfkd_cons] at h
  by_cases ha1 : a = 'ž'
  · rw [ha1, nfkdChar_z, List.cons_append, List.cons_append, List.nil_append] at h
    exact absurd (List.cons_eq_cons.mp h).1 (by decide)
  by_cases ha2 : a = 'Ž'
  · rw [ha2, nfkdChar_Zc, List.cons_append, List.cons_append, List.nil_append] at h
    exact absurd (List.cons_eq_cons.mp h).1 (by decide)
  rw [nfkdChar_other a ha1 ha2, List.singleton_append] at h
  obtain ⟨rfl, h1⟩ := List.cons_eq_cons.mp h
  rcases t1 with _ | ⟨b, t2⟩
  · exact absurd h1 (by simp [nfkd])
  rw [nfkd_cons] at h1
  by_cases hb1 : b = 'ž'
  · rw [hb1, nfkdChar_z, List.cons_append, List.cons_append, List.nil_append] at h1
    exact absurd (List.cons_eq_cons.mp h1).1 (by decide)
  by_cases hb2 : b = 'Ž'
  · rw [hb2, nfkdChar_Zc, List.cons_append, List.cons_append, List.nil_append] at h1
    exact absurd (List.cons_eq_cons.mp h1).1 (by decide)
  rw [nfkdChar_other b hb1 hb2, List.singleton_append] at h1
  obtain ⟨rfl, h2⟩ := List.cons_eq_cons.mp h1
  rcases t2 with _ | ⟨c, t3⟩
  · exact absurd h2 (by simp [nfkd])
  rw [nfkd_cons] at h2
  by_cases hc1 : c = 'ž'
  · rw [hc1, nfkdChar_z, List.cons_append, List.cons_append, List.nil_append] at h2
    exact absurd (List.cons_eq_cons.mp h2).1 (by decide)
  by_cases hc2 : c = 'Ž'
  · rw [hc2, nfkdChar_Zc, List.cons_append, List.cons_append, List.nil_append] at h2
    exact absurd (List.cons_eq_cons.mp h2).1 (by decide)
  rw [nfkdChar_other c hc1 hc2, List.singleton_append] at h2
  obtain ⟨rfl, h3⟩ := List.cons_eq_cons.mp h2
  exact ⟨t3, rfl⟩


/-- Replacement keeps every character property that also holds for ž. -/
theorem repMuzi_pres (q : Char → Bool) (hq : q 'ž' = true) :
    ∀ l : List Char, (∀ c ∈ l, q c = true) → ∀ c ∈ repMuzi l, q c = true := by
  intro l
  induction l using repMuzi.induct with
  | case1 =>
    intro _ c hc
    simp [repMuzi] at hc
  | case2 x1 x2 x3 x4 x5 h ih =>
    intro hl c hc
    obtain ⟨r, hr⟩ := (startsMuzi_iff _).mp h
    simp only [List.cons_eq_cons] at hr
    obtain ⟨rfl, rfl, rfl, rfl, rfl⟩ := hr
    rw [repMuzi_eq_pos] at hc
    have hl5 : ∀ d ∈ x5, q d = true := fun d hd => hl d (by simp [hd])
    rcases List.mem_cons.mp hc with rfl | hc
    · exact hl _ (by simp)
    rcases List.mem_cons.mp hc with rfl | hc
    · exact hl _ (by simp)
    rcases List.mem_cons.mp hc with rfl | hc
    · exact hq
    rcases List.mem_cons.mp hc with rfl | hc
    · exact hl _ (by simp)
    exact ih hl5 c hc
  | case3 a t h hne =>
    intro _ c _
    exfalso
    obtain ⟨r, hr⟩ := (startsMuzi_iff _).mp h
    exact hne _ _ _ r (List.cons_eq_cons.mp hr).2
  | case4 a t h ih =>
    intro hl c hc
    rw [repMuzi_eq_neg a t (by simpa using h)] at hc
    rcases List.mem_cons.mp hc with rfl | hc
    · exact hl _ (List.mem_cons_self _ _)
    exact ih (fun d hd => hl d (List.mem_cons_of_mem _ hd)) c hc

/-- Replacement keeps every character property that also holds for ž
(`zeny` version). -/
theorem repZeny_pres (q : Char → Bool) (hq : q 'ž' = true) :
    ∀ l : List Char, (∀ c ∈ l, q c = true) → ∀ c ∈ repZeny l, q c = true := by
  intro l
  induction l using repZeny.induct with
  | case1 =>
    intro _ c hc
    simp [repZeny] at hc
  | case2 x1 x2 x3 x4 x5 h ih =>
    intro hl c hc
    obtain ⟨r, hr⟩ := (startsZeny_iff _).mp h
    simp only [List.cons_eq_cons] at hr
    obtain ⟨rfl, rfl, rfl, rfl, rfl⟩ := hr
    rw [repZeny_eq_pos] at hc
    have hl5 : ∀ d ∈ x5, q d = true := fun d hd => hl d (by simp [hd])
    rcases List.mem_cons.mp hc with rfl | hc
    · exact hq
    rcases List.mem_cons.mp hc with rfl | hc
    · exact hl _ (by simp)
    rcases List.mem_cons.mp hc with rfl | hc
    · exact hl _ (by simp)
    rcases List.mem_cons.mp hc with rfl | hc
    · exact hl _ (by simp)
    exact ih hl5 c hc
  | case3 a t h hne =>
    intro _ c _
    exfalso
    obtain ⟨r, hr⟩ := (startsZeny_iff _).mp h
    exact hne _ _ _ r (List.cons_eq_cons.mp hr).2
  | case4 a t h ih =>
    intro hl c hc
    rw [repZeny_eq_neg a t (by simpa using h)] at hc
    rcases List.mem_cons.mp hc with rfl | hc
    · exact hl _ (List.mem_cons_self _ _)
    exact ih (fun d hd => hl d (List.mem_cons_of_mem _ hd)) c hc

/-- After `repMuzi`, the pattern `muzi` no longer occurs anywhere. -/
theorem hasMuzi_repMuzi : ∀ l : List Char, hasMuzi (repMuzi l) = false := by
  intro l
  induction l using repMuzi.induct with
  | case1 => rfl
  | case2 x1 x2 x3 x4 x5 h ih =>
    obtain ⟨r, hr⟩ := (startsMuzi_iff _).mp h
    simp only [List.cons_eq_cons] at hr
    obtain ⟨rfl, rfl, rfl, rfl, rfl⟩ := hr
    rw [repMuzi_eq_pos, hasMuzi_cons, sM_muzi_out, hasMuzi_cons,
      startsMuzi_ne 'u' _ (by decide), hasMuzi_cons, startsMuzi_ne 'ž' _ (by decide),
      hasMuzi_cons, startsMuzi_ne 'i' _ (by decide), ih]
    rfl
  | case3 a t h hne =>
    exfalso
    obtain ⟨r, hr⟩ := (startsMuzi_iff _).mp h
    exact hne _ _ _ r (List.cons_eq_cons.mp hr).2
  | case4 a t h ih =>
    rw [repMuzi_eq_neg a t (by simpa using h), hasMuzi_cons, ih, Bool.or_false]
    by_contra hx
    have hx2 : startsMuzi (a :: repMuzi t) = true := by simpa using hx
    obtain ⟨r2, hr2⟩ := (startsMuzi_iff _).mp hx2
    obtain ⟨rfl, hrt⟩ := List.cons_eq_cons.mp hr2
    obtain ⟨r3, hr3⟩ := repMuzi_uzi t r2 hrt
    rw [hr3] at h
    have hT := (startsMuzi_iff ('m' :: 'u' :: 'z' :: 'i' :: r3)).mpr ⟨r3, rfl⟩
    rw [hT] at h
    exact absurd h (by decide)

/-- After `repZeny`, the pattern `zeny` no longer occurs anywhere. -/
theorem hasZeny_repZeny : ∀ l : List Char, hasZeny (repZeny l) = false := by
  intro l
  induction l using repZeny.induct with
  | case1 => rfl
  | case2 x1 x2 x3 x4 x5 h ih =>
    obtain ⟨r, hr⟩ := (startsZeny_iff _).mp h
    simp only [List.cons_eq_cons] at hr
    obtain ⟨rfl, rfl, rfl, rfl, rfl⟩ := hr
    rw [repZeny_eq_pos, hasZeny_cons, sZ_zeny_out, hasZeny_cons,
      startsZeny_ne 'e' _ (by decide), hasZeny_cons, startsZeny_ne 'n' _ (by decide),
      hasZeny_cons, startsZeny_ne 'y' _ (by decide), ih]
    rfl
  | case3 a t h hne =>
    exfalso
    obtain ⟨r, hr⟩ := (startsZeny_iff _).mp h
    exact hne _ _ _ r (List.cons_eq_cons.mp hr).2
  | case4 a t h ih =>
    rw [repZeny_eq_neg a t (by simpa using h), hasZeny_cons, ih, Bool.or_false]
    by_contra hx
    have hx2 : startsZeny (a :: repZeny t) = true := by simpa using hx
    obtain ⟨r2, hr2⟩ := (startsZeny_iff _).mp hx2
    obtain ⟨rfl, hrt⟩ := List.cons_eq_cons.mp hr2
    obtain ⟨r3, hr3⟩ := repZeny_eny t r2 hrt
    rw [hr3] at h
    have hT := (startsZeny_iff ('z' :: 'e' :: 'n' :: 'y' :: r3)).mpr ⟨r3, rfl⟩
    rw [hT] at h
    exact absurd h (by decide)

/-- `repZeny` cannot create a `muzi` occurrence. -/
theorem hasMuzi_repZeny : ∀ l : List Char, hasMuzi l = false →
    hasMuzi (repZeny l) = false := by
  intro l
  induction l using repZeny.induct with
  | case1 =>
    intro _
    rfl
  | case2 x1 x2 x3 x4 x5 h ih =>
    intro hl
    obtain ⟨r, hr⟩ := (startsZeny_iff _).mp h
    simp only [List.cons_eq_cons] at hr
    obtain ⟨rfl, rfl, rfl, rfl, rfl⟩ := hr
    have h5 : hasMuzi x5 = false :=
      hasMuzi_tail _ _ (hasMuzi_tail _ _ (hasMuzi_tail _ _ (hasMuzi_tail _ _ hl)))
    rw [repZeny_eq_pos, hasMuzi_cons, startsMuzi_ne 'ž' _ (by decide), hasMuzi_cons,
      startsMuzi_ne 'e' _ (by decide), hasMuzi_cons, startsMuzi_ne 'n' _ (by decide),
      hasMuzi_cons, startsMuzi_ne 'y' _ (by decide), ih h5]
    rfl
  | case3 a t h hne =>
    intro _
    exfalso
    obtain ⟨r, hr⟩ := (startsZeny_iff _).mp h
    exact hne _ _ _ r (List.cons_eq_cons.mp hr).2
  | case4 a t h ih =>
    intro hl
    rw [repZeny_eq_neg a t (by simpa using h), hasMuzi_cons, ih (hasMuzi_tail _ _ hl), Bool.or_false]
    by_contra hx
    have hx2 : startsMuzi (a :: repZeny t) = true := by simpa using hx
    obtain ⟨r2, hr2⟩ := (startsMuzi_iff _).mp hx2
    obtain ⟨rfl, hrt⟩ := List.cons_eq_cons.mp hr2
    obtain ⟨r3, hr3⟩ := repZeny_uzi t r2 hrt
    have hhead := hasMuzi_head _ _ hl
    rw [hr3] at hhead
    have hT := (startsMuzi_iff ('m' :: 'u' :: 'z' :: 'i' :: r3)).mpr ⟨r3, rfl⟩
    rw [hT] at hhead
    exact absurd hhead (by decide)

/-- NFKD cannot create a `muzi` occurrence on caron-free input. -/
theorem hasMuzi_nfkd : ∀ l : List Char, (∀ c ∈ l, c ≠ '\u030C') → hasMuzi l = false →
    hasMuzi (nfkd l) = false := by
  intro l
  induction l with
  | nil =>
    intro _ _
    rfl
  | cons c t ih =>
    intro hcar hl
    have ht := ih (fun d hd => hcar d (List.mem_cons_of_mem _ hd)) (hasMuzi_tail _ _ hl)
    rw [nfkd_cons]
    by_cases hz : c = 'ž'
    · rw [hz, nfkdChar_z, List.cons_append, List.cons_append, List.nil_append,
        hasMuzi_cons, startsMuzi_ne 'z' _ (by decide), hasMuzi_cons,
        startsMuzi_ne '\u030C' _ (by decide), ht]
      rfl
    by_cases hZ : c = 'Ž'
    · rw [hZ, nfkdChar_Zc, List.cons_append, List.cons_append, List.nil_append,
        hasMuzi_cons, startsMuzi_ne 'Z' _ (by decide), hasMuzi_cons,
        startsMuzi_ne '\u030C' _ (by decide), ht]
      rfl
    rw [nfkdChar_other c hz hZ, List.singleton_append, hasMuzi_cons, ht, Bool.or_false]
    by_contra hx
    have hx2 : startsMuzi (c :: nfkd t) = true := by simpa using hx
    obtain ⟨r2, hr2⟩ := (startsMuzi_iff _).mp hx2
    obtain ⟨rfl, hrt⟩ := List.cons_eq_cons.mp hr2
    obtain ⟨r3, hr3⟩ := nfkd_uzi t r2 hrt
    have hhead := hasMuzi_head _ _ hl
    rw [hr3] at hhead
    have hT := (startsMuzi_iff ('m' :: 'u' :: 'z' :: 'i' :: r3)).mpr ⟨r3, rfl⟩
    rw [hT] at hhead
    exact absurd hhead (by decide)

/-- NFKD cannot create a `zeny` occurrence on caron-free input. -/
theorem hasZeny_nfkd : ∀ l : List Char, (∀ c ∈ l, c ≠ '\u030C') → hasZeny l = false →
    hasZeny (nfkd l) = false := by
  intro l
  induction l with
  | nil =>
    intro _ _
    rfl
  | cons c t ih =>
    intro hcar hl
    have ht := ih (fun d hd => hcar d (List.mem_cons_of_mem _ hd)) (hasZeny_tail _ _ hl)
    rw [nfkd_cons]
    by_cases hz : c = 'ž'
    · rw [hz, nfkdChar_z, List.cons_append, List.cons_append, List.nil_append,
        hasZeny_cons, sZ_z_caron, hasZeny_cons, startsZeny_ne '\u030C' _ (by decide), ht]
      rfl
    by_cases hZ : c = 'Ž'
    · rw [hZ, nfkdChar_Zc, List.cons_append, List.cons_append, List.nil_append,
        hasZeny_cons, startsZeny_ne 'Z' _ (by decide), hasZeny_cons,
        startsZeny_ne '\u030C' _ (by decide), ht]
      rfl
    rw [nfkdChar_other c hz hZ, List.singleton_append, hasZeny_cons, ht, Bool.or_false]
    by_contra hx
    have hx2 : startsZeny (c :: nfkd t) = true := by simpa using hx
    obtain ⟨r2, hr2⟩ := (startsZeny_iff _).mp hx2
    obtain ⟨rfl, hrt⟩ := List.cons_eq_cons.mp hr2
    obtain ⟨r3, hr3⟩ := nfkd_eny t r2 hrt
    have hhead := hasZeny_head _ _ hl
    rw [hr3] at hhead
    have hT := (startsZeny_iff ('z' :: 'e' :: 'n' :: 'y' :: r3)).mpr ⟨r3, rfl⟩
    rw [hT] at hhead
    exact absurd hhead (by decide)

/-- `repMuzi` never empties a non-empty string. -/
theorem repMuzi_ne_nil (l : List Char) (h : l ≠ []) : repMuzi l ≠ [] := by
  rcases l with _ | ⟨a, t⟩
  · exact absurd rfl h
  by_cases hs : startsMuzi (a :: t) = true
  · obtain ⟨r, hr⟩ := (startsMuzi_iff _).mp hs
    rw [hr, repMuzi_eq_pos]
    simp
  · rw [repMuzi_eq_neg a t (by simpa using hs)]
    simp

/-- `repZeny` never empties a non-empty string. -/
theorem repZeny_ne_nil (l : List Char) (h : l ≠ []) : repZeny l ≠ [] := by
  rcases l with _ | ⟨a, t⟩
  · exact absurd rfl h
  by_cases hs : startsZeny (a :: t) = true
  · obtain ⟨r, hr⟩ := (startsZeny_iff _).mp hs
    rw [hr, repZeny_eq_pos]
    simp
  · rw [repZeny_eq_neg a t (by simpa using hs)]
    simp

/-- C1 (amended): `normalize_class_name` is idempotent on inputs consisting
of ASCII characters that are neither whitespace nor dash-class characters.
(It is not idempotent in general: the trailing-letter chop rule can fire
again on the output.) -/
theorem normalize_idem_of_plain (x : List Char) (h : ∀ c ∈ x, plainChar c = true) :
    normalize_class_name (normalize_class_name x) = normalize_class_name x := by
  by_cases hx : x = []
  · subst hx
    rfl
  have hy_plain : ∀ c ∈ x.map pyLower, plainChar c = true := by
    intro c hc
    obtain ⟨d, hd, rfl⟩ := List.mem_map.mp hc
    exact pyLower_plain d (h d hd)
  have hy_lower : ∀ c ∈ x.map pyLower, pyLower c = c := by
    intro c hc
    obtain ⟨d, hd, rfl⟩ := List.mem_map.mp hc
    exact pyLower_fix d (h d hd)
  have hy_ne : x.map pyLower ≠ [] := by
    simpa using hx
  have hstrip : pyStrip (x.map pyLower) = x.map pyLower :=
    pyStrip_id _ (fun c hc => plainChar_not_ws c (hy_plain c hc))
  have hdash : dashSub (x.map pyLower) = x.map pyLower :=
    dashSubAux_id _ (fun c hc => plainChar_not_dash c (hy_plain c hc))
  have hws : wsSub (x.map pyLower) = x.map pyLower :=
    wsSubAux_id _ (fun c hc => plainChar_not_ws c (hy_plain c hc))
  have hchop : chopTail (x.map pyLower) = x.map pyLower := by
    apply chopTail_id
    intro c hc heq
    have hw := plainChar_not_ws c (hy_plain c hc)
    rw [heq] at hw
    exact absurd hw (by decide)
  have hnfkd1 : nfkd (x.map pyLower) = x.map pyLower := by
    apply nfkd_id
    intro c hc
    have hp := hy_plain c hc
    constructor
    · intro heq
      rw [heq] at hp
      exact absurd hp (by decide)
    · intro heq
      rw [heq] at hp
      exact absurd hp (by decide)
  have hq_y : ∀ c ∈ x.map pyLower,
      ((plainChar c || (c == 'ž')) && (pyLower c == c)) = true := by
    intro c hc
    rw [hy_plain c hc, hy_lower c hc]
    simp
  have hq_m : ∀ c ∈ repZeny (repMuzi (x.map pyLower)),
      ((plainChar c || (c == 'ž')) && (pyLower c == c)) = true :=
    repZeny_pres _ (by decide) _ (repMuzi_pres _ (by decide) _ hq_y)
  have hm_split : ∀ c ∈ repZeny (repMuzi (x.map pyLower)),
      (plainChar c = true ∨ c = 'ž') ∧ pyLower c = c := by
    intro c hc
    have hq := hq_m c hc
    simp only [Bool.and_eq_true, Bool.or_eq_true, beq_iff_eq] at hq
    exact hq
  have hm_lower : ∀ c ∈ repZeny (repMuzi (x.map pyLower)), pyLower c = c :=
    fun c hc => (hm_split c hc).2
  have hm_ws : ∀ c ∈ repZeny (repMuzi (x.map pyLower)), isPyWhitespace c = false := by
    intro c hc
    rcases (hm_split c hc).1 with hp | rfl
    · exact plainChar_not_ws c hp
    · decide
  have hm_dash : ∀ c ∈ repZeny (repMuzi (x.map pyLower)), isDashChar c = false := by
    intro c hc
    rcases (hm_split c hc).1 with hp | rfl
    · exact plainChar_not_dash c hp
    · decide
  have hm_nospace : ∀ c ∈ repZeny (repMuzi (x.map pyLower)), c ≠ ' ' := by
    intro c hc heq
    have hw := hm_ws c hc
    rw [heq] at hw
    exact absurd hw (by decide)
  have hm_nocaron : ∀ c ∈ repZeny (repMuzi (x.map pyLower)), c ≠ '\u030C' := by
    intro c hc heq
    rcases (hm_split c hc).1 with hp | hz
    · rw [heq] at hp
      exact absurd hp (by decide)
    · rw [heq] at hz
      exact absurd hz (by decide)
  have hnfc1 : nfc (repZeny (repMuzi (x.map pyLower))) =
      repZeny (repMuzi (x.map pyLower)) := nfc_id _ hm_nocaron
  have hn1 : normalize_class_name x =
      pyCapitalize (repZeny (repMuzi (x.map pyLower))) := by
    rw [normalize_class_name, if_neg hx, hstrip, hdash, hws, hchop, hnfkd1, hnfc1]
  have hm_ne : repZeny (repMuzi (x.map pyLower)) ≠ [] :=
    repZeny_ne_nil _ (repMuzi_ne_nil _ hy_ne)
  obtain ⟨c0, t0, hm_shape⟩ :
      ∃ c0 t0, repZeny (repMuzi (x.map pyLower)) = c0 :: t0 := by
    rcases hmm : repZeny (repMuzi (x.map pyLower)) with _ | ⟨c0, t0⟩
    · exact absurd hmm hm_ne
    · exact ⟨c0, t0, rfl⟩
  have hcap_ne : pyCapitalize (repZeny (repMuzi (x.map pyLower))) ≠ [] := by
    rw [hm_shape]
    simp [pyCapitalize]
  have hlow2 : (pyCapitalize (repZeny (repMuzi (x.map pyLower)))).map pyLower =
      repZeny (repMuzi (x.map pyLower)) := by
    rw [hm_shape]
    rw [show pyCapitalize (c0 :: t0) = pyUpper c0 :: t0.map pyLower from rfl,
      List.map_cons]
    have ht0 : t0.map pyLower = t0 := by
      have hptw : ∀ d ∈ t0, pyLower d = d := fun d hd =>
        hm_lower d (by rw [hm_shape]; exact List.mem_cons_of_mem _ hd)
      exact (List.map_congr_left hptw).trans (List.map_id t0)
    rw [ht0, ht0]
    have hc0 := hm_split c0 (by rw [hm_shape]; exact List.mem_cons_self _ _)
    rcases hc0.1 with hp | hzc
    · rw [pyLower_pyUpper c0 hp hc0.2]
    · rw [hzc, show pyLower (pyUpper 'ž') = 'ž' from by decide]
  have hstrip2 : pyStrip (repZeny (repMuzi (x.map pyLower))) =
      repZeny (repMuzi (x.map pyLower)) := pyStrip_id _ hm_ws
  have hdash2 : dashSub (repZeny (repMuzi (x.map pyLower))) =
      repZeny (repMuzi (x.map pyLower)) := dashSubAux_id _ hm_dash
  have hws2 : wsSub (repZeny (repMuzi (x.map pyLower))) =
      repZeny (repMuzi (x.map pyLower)) := wsSubAux_id _ hm_ws
  have hchop2 : chopTail (repZeny (repMuzi (x.map pyLower))) =
      repZeny (repMuzi (x.map pyLower)) := chopTail_id _ hm_nospace
  have hmu_D : hasMuzi (nfkd (repZeny (repMuzi (x.map pyLower)))) = false :=
    hasMuzi_nfkd _ hm_nocaron (hasMuzi_repZeny _ (hasMuzi_repMuzi _))
  have hze_D : hasZeny (nfkd (repZeny (repMuzi (x.map pyLower)))) = false :=
    hasZeny_nfkd _ hm_nocaron (hasZeny_repZeny _)
  have hnfc2 : nfc (nfkd (repZeny (repMuzi (x.map pyLower)))) =
      repZeny (repMuzi (x.map pyLower)) := nfc_nfkd _ hm_nocaron
  rw [hn1, normalize_class_name, if_neg hcap_ne, hlow2, hstrip2, hdash2, hws2,
    hchop2, noMuzi_id _ hmu_D, noZeny_id _ hze_D, hnfc2]

/-- Witness for `normalize_idem_of_plain` on `"AMuzi12"`. -/
theorem normalize_idem_of_plain_witness :
    (∀ c ∈ "AMuzi12".data, plainChar c = true) ∧
    normalize_class_name (normalize_class_name "AMuzi12".data) =
      normalize_class_name "AMuzi12".data :=
  ⟨by decide, normalize_idem_of_plain "AMuzi12".data (by decide)⟩
